import Mathlib

/-!
Shallow embedding of the cache database core from
src/Telegram/SourceFiles/storage/cache/storage_cache_database_object.cpp.

The embedding translates the in-memory index and its operations (put, get,
remove, pruning, bundled binlog writes, compaction gating) into executable
Lean definitions.  External collaborators are modelled as environment inputs:

* The encrypted data files are an association list from place identifiers to
  byte lists held in the state; an absent place means opening the data file
  fails (File is an external collaborator per the specification, section 1).
* The xxh32 checksum comes from the external xxhash library; it is modelled
  as a fixed pure function of the bytes, which is all the cache code relies
  on (it only ever compares stored and recomputed checksums).
* Binlog appends and data-file writes can fail; each operation carries
  booleans saying whether the corresponding write succeeded.
* The random 7-byte place draw is modelled by the caller supplying the drawn
  place; wall-clock reads are modelled by the caller supplying the current
  unixtime.
* Timers only schedule future work; arming them does not change the modelled
  state, so the timer machinery itself is not part of the state.  The prune
  decision of startDelayedPruning and the compaction gate of checkCompactor
  are embedded as pure functions of their inputs.

Keys are 128-bit values opaque to the store and places are 7-byte
identifiers; both are modelled as natural numbers.  The flat_map index is a
key-sorted association list, the flat_set pending sets are sorted lists.
-/

namespace CacheDb

/-- Entry stored in the in-memory index, mirroring DatabaseObject::Entry.
A default-constructed entry (produced by flat_map operator[] inside
setMapEntry for a fresh key) has every field zero. -/
structure Entry where
  place : Nat
  tag : Nat
  checksum : Nat
  size : Int
  useTime : Nat
deriving DecidableEq

/-- Default-constructed entry: all fields zero. -/
def emptyEntry : Entry := ⟨0, 0, 0, 0, 0⟩

/-- EstimatedTimePoint: a wall-clock second count paired with the monotonic
relative counter. -/
structure EstimatedTimePoint where
  system : Nat
  relative : Nat
deriving DecidableEq

/-- Settings fields used by the embedded operations.  Size-like fields are
integers (size_type in the source), counts and times are naturals.  Per the
specification's configuration table all fields are positive unless noted,
with zero meaning disabled, so the count-like fields are naturals. -/
structure Settings where
  maxDataSize : Int
  maxBundledRecords : Nat
  trackEstimatedTime : Bool
  totalTimeLimit : Nat
  totalSizeLimit : Int
  writeBundleDelay : Nat
  compactAfterExcess : Nat
  compactAfterFullSize : Nat
deriving DecidableEq

/-- Binlog records appended after the basic header.  Only the fields the
in-memory state depends on are kept. -/
inductive BinRecord where
  | store (key place tag checksum : Nat) (size : Int) (time : Option EstimatedTimePoint)
  | multiRemove (keys : List Nat)
  | multiAccess (time : EstimatedTimePoint) (keys : List Nat)
deriving DecidableEq

/-- Serialized sizes of the binlog record layouts, from the record structs
in storage_cache_types.h (a key is two 64-bit halves).  The claims under
verification do not depend on the concrete values. -/
def sizeofKeyBytes : Int := 16

/-- Serialized size of a Store record. -/
def sizeofStoreBytes : Int := 32

/-- Serialized size of a StoreWithTime record. -/
def sizeofStoreWithTimeBytes : Int := 48

/-- Serialized size of a MultiRemove header. -/
def sizeofMultiRemoveHeaderBytes : Int := 4

/-- Serialized size of a MultiAccess header. -/
def sizeofMultiAccessHeaderBytes : Int := 20

/-- The mutable state owned by the database actor: the index map with its
derived aggregates, the pending removing/accessed sets, the estimated time
point, the binlog contents with the excess-length counter, and the data
files keyed by place. -/
structure DbState where
  map : List (Nat × Entry)
  totalSize : Int
  minimalEntryTime : Nat
  entriesWithMinimalTimeCount : Nat
  removing : List Nat
  accessed : List Nat
  time : EstimatedTimePoint
  binlog : List BinRecord
  binlogExcessLength : Int
  files : List (Nat × List Nat)
deriving DecidableEq

/-- Lookup in an association list keyed by naturals (flat_map find). -/
def alookup {α : Type} (k : Nat) : List (Nat × α) → Option α
  | [] => none
  | kv :: rest => if kv.1 = k then some kv.2 else alookup k rest

/-- Key-sorted insert-or-replace in an association list (flat_map
operator[] followed by assignment). -/
def ainsert {α : Type} (k : Nat) (v : α) : List (Nat × α) → List (Nat × α)
  | [] => [(k, v)]
  | kv :: rest =>
    if k < kv.1 then (k, v) :: kv :: rest
    else if k = kv.1 then (k, v) :: rest
    else kv :: ainsert k v rest

/-- Erase the first binding of a key from an association list (flat_map
erase). -/
def aerase {α : Type} (k : Nat) : List (Nat × α) → List (Nat × α)
  | [] => []
  | kv :: rest => if kv.1 = k then rest else kv :: aerase k rest

/-- Well-formedness of the association lists: keys strictly ascending. -/
def SortedKeys {α : Type} (m : List (Nat × α)) : Prop :=
  List.Pairwise (fun a b => a.1 < b.1) m

/-- Sorted duplicate-free insert into a flat_set of keys. -/
def insertSet (k : Nat) : List Nat → List Nat
  | [] => [k]
  | x :: rest =>
    if k < x then k :: x :: rest
    else if k = x then x :: rest
    else x :: insertSet k rest

/-- Erase a key from a flat_set of keys. -/
def eraseSet (k : Nat) : List Nat → List Nat
  | [] => []
  | x :: rest => if x = k then eraseSet k rest else x :: eraseSet k rest

/-- Sum of the entry sizes of an index, the specification-side meaning of
totalSize. -/
def sumSizes (m : List (Nat × Entry)) : Int :=
  (m.map (fun kv => kv.2.size)).sum

/-- Specification-side definition of the minimal use time: the minimum of
useTime over the index, zero when the index is empty.  Used to compare the
maintained minimalEntryTime aggregate against the specification's claim. -/
def specMinUseTime (m : List (Nat × Entry)) : Nat :=
  match m with
  | [] => 0
  | kv :: rest => (rest.map (fun x => x.2.useTime)).foldl min kv.2.useTime

/-- CountChecksum wraps XXH32 from the external xxhash library (not part of
this repository).  It is modelled as a fixed pure 32-bit function of the
bytes; the cache code only ever compares stored against recomputed values. -/
def CountChecksum (data : List Nat) : Nat :=
  data.foldl (fun h b => (h * 33 + b + 1) % 4294967296) 5381

/-- DatabaseObject::setMapEntry: insert or replace the entry for a key,
updating totalSize, binlogExcessLength (an overwrite makes the previous
Store record excess) and the minimal-time bookkeeping. -/
def setMapEntry (settings : Settings) (st : DbState) (key : Nat) (entry : Entry) : DbState :=
  let already := (alookup key st.map).getD emptyEntry
  let newTotal := st.totalSize + entry.size - already.size
  let newExcess :=
    if already.size ≠ 0 then
      st.binlogExcessLength
        + (if settings.trackEstimatedTime then sizeofStoreWithTimeBytes else sizeofStoreBytes)
    else st.binlogExcessLength
  let minPair : Nat × Nat :=
    if entry.useTime ≠ 0 ∧ (entry.useTime < st.minimalEntryTime ∨ st.minimalEntryTime = 0) then
      (entry.useTime, 1)
    else if st.minimalEntryTime ≠ 0 ∧ already.useTime ≠ entry.useTime then
      (if entry.useTime = st.minimalEntryTime then
        (st.minimalEntryTime, st.entriesWithMinimalTimeCount + 1)
      else if already.useTime = st.minimalEntryTime then
        (st.minimalEntryTime, st.entriesWithMinimalTimeCount - 1)
      else (st.minimalEntryTime, st.entriesWithMinimalTimeCount))
    else (st.minimalEntryTime, st.entriesWithMinimalTimeCount)
  { st with
    map := ainsert key entry st.map
    totalSize := newTotal
    binlogExcessLength := newExcess
    minimalEntryTime := minPair.1
    entriesWithMinimalTimeCount := minPair.2 }

/-- DatabaseObject::eraseMapEntry: drop an index entry, subtracting its size
from totalSize and adjusting the minimal-time count; minimalEntryTime itself
is left untouched.  The source takes a map iterator and guards i != end,
embedded here as a lookup with the identity on a missing key. -/
def eraseMapEntry (st : DbState) (key : Nat) : DbState :=
  match alookup key st.map with
  | none => st
  | some entry =>
    { st with
      totalSize := st.totalSize - entry.size
      entriesWithMinimalTimeCount :=
        if st.minimalEntryTime ≠ 0 ∧ entry.useTime = st.minimalEntryTime then
          st.entriesWithMinimalTimeCount - 1
        else st.entriesWithMinimalTimeCount
      map := aerase key st.map }

/-- DatabaseObject::countRelativeTime, with the GetUnixtime() reading
supplied by the caller: relative plus the non-negative wall-clock delta. -/
def countRelativeTime (st : DbState) (now : Nat) : Nat :=
  st.time.relative + (now - st.time.system)

/-- DatabaseObject::countTimePoint. -/
def countTimePoint (st : DbState) (now : Nat) : EstimatedTimePoint :=
  ⟨now, countRelativeTime st now⟩

/-- DatabaseObject::applyTimePoint: advance the stored time point when the
observed relative time is strictly larger. -/
def applyTimePoint (st : DbState) (tp : EstimatedTimePoint) : DbState :=
  if tp.relative > st.time.relative then { st with time := tp } else st

/-- DatabaseObject::pruneBeforeTime: zero when no time limit or when the
current relative time has not yet exceeded it. -/
def pruneBeforeTime (settings : Settings) (st : DbState) (now : Nat) : Nat :=
  let relative := countRelativeTime st now
  if settings.totalTimeLimit ≠ 0 ∧ relative > settings.totalTimeLimit then
    relative - settings.totalTimeLimit
  else 0

/-- A Store or StoreWithTime record as assembled by writeKeyPlace; a Store
has no time field.  The tag field of a freshly constructed record is its
default value zero (put never assigns it). -/
structure StoreRecord where
  key : Nat
  place : Nat
  tag : Nat
  checksum : Nat
  size : Int
  time : Option EstimatedTimePoint
deriving DecidableEq

/-- DatabaseObject::processRecordStore/processRecordStoreGeneric: reject a
record whose size is out of (0, maxDataSize]; otherwise build the entry
(advancing the time point first for a StoreWithTime) and set it in the map. -/
def processRecordStore (settings : Settings) (st : DbState) (r : StoreRecord) :
    Option DbState :=
  if r.size ≤ 0 ∨ r.size > settings.maxDataSize then none
  else
    match r.time with
    | none =>
      some (setMapEntry settings st r.key ⟨r.place, r.tag, r.checksum, r.size, st.time.relative⟩)
    | some tp =>
      let st2 := applyTimePoint st tp
      some (setMapEntry settings st2 r.key ⟨r.place, r.tag, r.checksum, r.size, tp.relative⟩)

/-- DatabaseObject::readValueData: open the data file at the place (failure
when absent), read up to size bytes, and fail unless exactly size bytes were
read. -/
def readValueData (st : DbState) (place : Nat) (size : Int) : List Nat :=
  match alookup place st.files with
  | none => []
  | some bs =>
    if (((min bs.length size.toNat : Nat) : Int)) ≠ size then [] else bs.take size.toNat

/-- Shared tail of writeKeyPlaceGeneric after the fast-path check: append
the Store record to the binlog and apply it to the index.  A failed append
returns the engaged empty path (the source's `return QString()`) with the
state unchanged; no disengaged optional exists anywhere in the source.
The Assert(applied) of the source is the unreachable none branch of
processRecordStore, embedded as the identity. -/
def writeKeyPlaceCommit (settings : Settings) (st : DbState)
    (timeField : Option EstimatedTimePoint) (key : Nat) (value : List Nat)
    (checksum : Nat) (place : Nat) (binlogOk : Bool) :
    Option (Option Nat) × DbState :=
  let size : Int := (value.length : Int)
  if binlogOk then
    let st2 := { st with binlog := st.binlog ++ [BinRecord.store key place 0 checksum size timeField] }
    match processRecordStore settings st2 ⟨key, place, 0, checksum, size, timeField⟩ with
    | some st3 => (some (some place), st3)
    | none => (some (some place), st2)
  else (some none, st)

/-- DatabaseObject::writeKeyPlaceGeneric: on a known key whose entry matches
the new tag, size and checksum and whose place reads back equal to the
value, report the empty path (the no-op fast path); otherwise commit a
Store record reusing the known place or the freshly drawn one.  The first
component is some none on the fast path and on a failed binlog append
(both are the source's engaged empty QString()), and some (some place) on
a committed write; the none alternative of the optional is never produced
by this function. -/
def writeKeyPlaceGeneric (settings : Settings) (st : DbState)
    (timeField : Option EstimatedTimePoint) (key : Nat) (value : List Nat)
    (checksum : Nat) (newPlace : Nat) (binlogOk : Bool) :
    Option (Option Nat) × DbState :=
  let size : Int := (value.length : Int)
  match alookup key st.map with
  | some already =>
    if already.tag = 0 ∧ already.size = size ∧ already.checksum = checksum
        ∧ readValueData st already.place size = value then
      (some none, st)
    else
      writeKeyPlaceCommit settings st timeField key value checksum already.place binlogOk
  | none => writeKeyPlaceCommit settings st timeField key value checksum newPlace binlogOk

/-- DatabaseObject::writeKeyPlace: untracked stores carry no time; tracked
stores carry the current time point, snapped back to the stored one when
the advance is below writeBundleDelay. -/
def writeKeyPlace (settings : Settings) (st : DbState) (key : Nat)
    (value : List Nat) (checksum : Nat) (newPlace : Nat) (binlogOk : Bool)
    (now : Nat) : Option (Option Nat) × DbState :=
  if ¬settings.trackEstimatedTime then
    writeKeyPlaceGeneric settings st none key value checksum newPlace binlogOk
  else
    let tp0 := countTimePoint st now
    let tp :=
      if (tp0.relative - st.time.relative) * 1000 < settings.writeBundleDelay then st.time
      else tp0
    writeKeyPlaceGeneric settings st (some tp) key value checksum newPlace binlogOk

/-- DatabaseObject::writeMultiRemove: flush the pending removing set.  The
set is consumed unconditionally; only on a successful header append is the
MultiRemove record appended and counted as excess. -/
def writeMultiRemove (st : DbState) (ok : Bool) : DbState :=
  if st.removing = [] then st
  else
    let list := st.removing
    let st2 := { st with removing := [] }
    if ok then
      { st2 with
        binlog := st2.binlog ++ [BinRecord.multiRemove list]
        binlogExcessLength := st2.binlogExcessLength
          + sizeofMultiRemoveHeaderBytes + sizeofKeyBytes * (list.length : Int) }
    else st2

/-- DatabaseObject::writeMultiRemoveLazy: flush immediately when the set
reached maxBundledRecords, otherwise only arm the bundles timer (timer
arming does not change the modelled state). -/
def writeMultiRemoveLazy (settings : Settings) (st : DbState) (ok : Bool) : DbState :=
  if st.removing.length = settings.maxBundledRecords then writeMultiRemove st ok else st

/-- Update the useTime of the entry for one key, if present (the find and
assign inside the writeMultiAccessBlock loop). -/
def setUseTime (key : Nat) (t : Nat) (m : List (Nat × Entry)) : List (Nat × Entry) :=
  m.map (fun kv => if kv.1 = key then (kv.1, { kv.2 with useTime := t }) else kv)

/-- Apply setUseTime for every key of the flushed accessed list. -/
def bumpUseTimes (keys : List Nat) (t : Nat) (m : List (Nat × Entry)) :
    List (Nat × Entry) :=
  keys.foldl (fun acc k => setUseTime k t acc) m

/-- DatabaseObject::writeMultiAccessBlock: take the accessed set, advance
the stored time point to the freshly counted one and bump every listed
entry's useTime, then attempt the binlog append; a failed header append
leaves the binlog untouched while the in-memory updates stand. -/
def writeMultiAccessBlock (st : DbState) (now : Nat) (ok : Bool) : DbState :=
  let time := countTimePoint st now
  let list := st.accessed
  let st2 := { st with
    accessed := []
    time := time
    map := bumpUseTimes list time.relative st.map }
  if ok then
    { st2 with
      binlog := st2.binlog ++ [BinRecord.multiAccess time list]
      binlogExcessLength := st2.binlogExcessLength
        + sizeofMultiAccessHeaderBytes + sizeofKeyBytes * (list.length : Int) }
  else st2

/-- DatabaseObject::writeMultiAccess: flush only a non-empty accessed set. -/
def writeMultiAccess (st : DbState) (now : Nat) (ok : Bool) : DbState :=
  if st.accessed = [] then st else writeMultiAccessBlock st now ok

/-- DatabaseObject::writeMultiAccessLazy: flush immediately at
maxBundledRecords, otherwise only arm the bundles timer. -/
def writeMultiAccessLazy (settings : Settings) (st : DbState) (now : Nat) (ok : Bool) :
    DbState :=
  if st.accessed.length = settings.maxBundledRecords then writeMultiAccessBlock st now ok
  else st

/-- DatabaseObject::writeBundles: flush removes, then accesses when time
tracking is enabled. -/
def writeBundles (settings : Settings) (st : DbState) (now : Nat)
    (okRemove okAccess : Bool) : DbState :=
  let st2 := writeMultiRemove st okRemove
  if settings.trackEstimatedTime then writeMultiAccess st2 now okAccess else st2

/-- DatabaseObject::recordEntryAccess: a no-op unless time tracking is on;
otherwise add the key to the accessed set and maybe flush (optimize() after
it only schedules timers). -/
def recordEntryAccess (settings : Settings) (st : DbState) (key : Nat) (now : Nat)
    (ok : Bool) : DbState :=
  if settings.trackEstimatedTime then
    writeMultiAccessLazy settings { st with accessed := insertSet key st.accessed } now ok
  else st

/-- DatabaseObject::get: empty for a pending-removing or unknown key, or
when the data file read fails, comes back short, or fails the checksum;
otherwise reply with the bytes and record an access. -/
def get (settings : Settings) (st : DbState) (key : Nat) (now : Nat) (ok : Bool) :
    List Nat × DbState :=
  if key ∈ st.removing then ([], st)
  else
    match alookup key st.map with
    | none => ([], st)
    | some entry =>
      let result := readValueData st entry.place entry.size
      if result = [] then ([], st)
      else if CountChecksum result ≠ entry.checksum then ([], st)
      else (result, recordEntryAccess settings st key now ok)

/-- DatabaseObject::remove: for a present key, stage it in the removing set
(maybe flushing a MultiRemove), erase the index entry and unlink its data
file; for an absent key do nothing.  The completion callback is invoked
unconditionally in the source. -/
def remove (settings : Settings) (st : DbState) (key : Nat) (ok : Bool) : DbState :=
  match alookup key st.map with
  | none => st
  | some entry =>
    let st2 := writeMultiRemoveLazy settings { st with removing := insertSet key st.removing } ok
    let st3 := eraseMapEntry st2 key
    { st3 with files := aerase entry.place st3.files }

/-- Result of opening the data file for writing inside put. -/
inductive OpenResult where
  | success
  | failed
  | lockFailed
deriving DecidableEq

/-- Outcome kind reported to a put completion (paths are dropped). -/
inductive ErrorType where
  | noError
  | io
  | lockFailed
deriving DecidableEq

/-- DatabaseObject::put.  An empty value delegates to remove with a NoError
completion.  Otherwise the key is dropped from the pending-removing set and
writeKeyPlace runs: the empty path (the fast path, and also a failed binlog
append, which comes back as the engaged empty path) reports NoError and
records only an access, and a committed record is followed by the data-file
write, whose failure removes the key again and reports IO.  The
`if (!maybepath)` IO branch of the source is dead code, since writeKeyPlace
never returns a disengaged optional; it is kept as the matching unreachable
none branch.  The none result models the Expects(value.size ≤ maxDataSize)
assertion being violated (no defined behaviour).  Environment inputs: the
unixtime reading, the randomly drawn place used for a fresh key, and the
success of the binlog append, the data-file open and write, and any bundle
flush. -/
def put (settings : Settings) (st : DbState) (key : Nat) (value : List Nat)
    (now newPlace : Nat) (binlogOk : Bool) (openRes : OpenResult)
    (writeOk bundleOk : Bool) : Option (DbState × ErrorType) :=
  if value = [] then some (remove settings st key bundleOk, ErrorType.noError)
  else
    let st1 := { st with removing := eraseSet key st.removing }
    if (value.length : Int) > settings.maxDataSize then none
    else
      let checksum := CountChecksum value
      let pr := writeKeyPlace settings st1 key value checksum newPlace binlogOk now
      match pr.1 with
      | none => some (pr.2, ErrorType.io)
      | some none =>
        some (recordEntryAccess settings pr.2 key now bundleOk, ErrorType.noError)
      | some (some place) =>
        match openRes with
        | OpenResult.failed => some (pr.2, ErrorType.io)
        | OpenResult.lockFailed => some (pr.2, ErrorType.lockFailed)
        | OpenResult.success =>
          if writeOk then
            some ({ pr.2 with files := ainsert place value pr.2.files }, ErrorType.noError)
          else
            some (remove settings { pr.2 with files := ainsert place value pr.2.files } key bundleOk,
              ErrorType.io)

/-- DatabaseObject::startDelayedPruning, reduced to its prune-now decision:
false when time tracking is off or the index is empty; otherwise prune now
exactly when the size limit is exceeded or the minimal entry time is
non-zero and at most pruneBeforeTime.  Arming the prune timer does not
change the modelled state. -/
def startDelayedPruning (settings : Settings) (st : DbState) (now : Nat) : Bool :=
  if ¬settings.trackEstimatedTime ∨ st.map = [] then false
  else
    let before := pruneBeforeTime settings st now
    if settings.totalSizeLimit > 0 ∧ st.totalSize > settings.totalSizeLimit then true
    else if st.minimalEntryTime ≠ 0 ∧ st.minimalEntryTime ≤ before then true
    else false

/-- DatabaseObject::checkCompactor, reduced to its start decision over the
inputs it reads: whether a compactor already runs, the binlog excess length
and file size, the monotonic clock and the stored next attempt time. -/
def checkCompactor (settings : Settings) (hasCompactor : Bool)
    (binlogExcessLength binlogSize nowMonotonic nextAttempt : Int) : Bool :=
  if hasCompactor ∨ settings.compactAfterExcess = 0
      ∨ binlogExcessLength < (settings.compactAfterExcess : Int) then false
  else if settings.compactAfterFullSize ≠ 0
      ∧ binlogExcessLength * (settings.compactAfterFullSize : Int)
        < (settings.compactAfterExcess : Int) * binlogSize then false
  else if nowMonotonic < nextAttempt then false
  else true

/-- The loop body of DatabaseObject::collectTimePrune over the index, with
the running minimal time, its count, the staged stale keys and their total
size as accumulators. -/
def timePruneScan (before : Nat) : List (Nat × Entry) → Nat → Nat → List Nat → Int →
    Nat × Nat × List Nat × Int
  | [], minT, minC, stale, sz => (minT, minC, stale, sz)
  | (k, e) :: rest, minT, minC, stale, sz =>
    if e.useTime ≤ before then timePruneScan before rest minT minC (stale ++ [k]) (sz + e.size)
    else if minT = 0 ∨ minT > e.useTime then timePruneScan before rest e.useTime 1 stale sz
    else if minT = e.useTime then timePruneScan before rest minT (minC + 1) stale sz
    else timePruneScan before rest minT minC stale sz

/-- DatabaseObject::collectTimePrune: no staging without a time limit or
when the minimal entry time is zero or past pruneBeforeTime; otherwise
stage every entry not newer than pruneBeforeTime while recomputing the
minimal time bookkeeping from the survivors. -/
def collectTimePrune (settings : Settings) (st : DbState) (now : Nat) :
    DbState × List Nat × Int :=
  if settings.totalTimeLimit = 0 then (st, [], 0)
  else
    let before := pruneBeforeTime settings st now
    if st.minimalEntryTime = 0 ∨ st.minimalEntryTime > before then (st, [], 0)
    else
      let r := timePruneScan before st.map 0 0 [] 0
      ({ st with minimalEntryTime := r.1, entriesWithMinimalTimeCount := r.2.1 },
        r.2.2.1, r.2.2.2)

/-- The canRemoveFirst pop loop of collectSizePrune: shed the newest bagged
entries while the bag together with the entry being added still releases at
least removeSize. -/
def popWhile (removeSize : Int) (adding : Entry) :
    List (Nat × Entry) → Int → List (Nat × Entry) × Int
  | [], tot => ([], tot)
  | f :: rest, tot =>
    if adding.useTime ≤ f.2.useTime ∧ tot + adding.size - removeSize ≥ f.2.size then
      popWhile removeSize adding rest (tot - f.2.size)
    else (f :: rest, tot)

/-- Insert into the oldest bag, kept sorted by descending useTime with
equal times after existing ones (flat_multi_map with greater, emplace). -/
def insertDesc (x : Nat × Entry) : List (Nat × Entry) → List (Nat × Entry)
  | [] => [x]
  | y :: rest => if y.2.useTime ≥ x.2.useTime then y :: insertDesc x rest else x :: y :: rest

/-- The admission decision of the collectSizePrune loop (the add local of
the source): admit while the bag does not yet cover removeSize, or when
the entry is older than the bag's newest element. -/
def sizePruneAdd (removeSize : Int) (oldest : List (Nat × Entry)) (tot : Int)
    (e : Entry) : Bool :=
  if tot < removeSize then true
  else
    match oldest with
    | [] => true
    | f :: _ => decide (e.useTime < f.2.useTime)

/-- The loop body of DatabaseObject::collectSizePrune over the index: skip
already-stale entries; admit an entry while the bag does not yet cover
removeSize or the entry is older than the bag's newest, shedding newer
bagged entries that the bag can spare. -/
def sizePruneScan (removeSize : Int) (stale : List Nat) :
    List (Nat × Entry) → List (Nat × Entry) → Int → List (Nat × Entry) × Int
  | [], oldest, tot => (oldest, tot)
  | (k, e) :: rest, oldest, tot =>
    if k ∈ stale then sizePruneScan removeSize stale rest oldest tot
    else
      if sizePruneAdd removeSize oldest tot e then
        sizePruneScan removeSize stale rest
          (insertDesc (k, e) (popWhile removeSize e oldest tot).1)
          ((popWhile removeSize e oldest tot).2 + e.size)
      else sizePruneScan removeSize stale rest oldest tot

/-- DatabaseObject::collectSizePrune: when a positive residual removeSize
remains after time staging, run the greedy oldest-first bag over the index
and stage its survivors, adding their total size. -/
def collectSizePrune (settings : Settings) (st : DbState) (stale : List Nat)
    (staleTotalSize : Int) : List Nat × Int :=
  let removeSize :=
    if settings.totalSizeLimit > 0 then
      st.totalSize - staleTotalSize - settings.totalSizeLimit
    else 0
  if removeSize ≤ 0 then (stale, staleTotalSize)
  else
    let r := sizePruneScan removeSize stale st.map [] 0
    (r.1.foldl (fun s kv => insertSet kv.1 s) stale, staleTotalSize + r.2)

/-- The removal loop of DatabaseObject::prune over the staged stale keys,
threading the per-flush binlog append successes. -/
def removeAll (settings : Settings) : DbState → List Nat → List Bool → DbState
  | st, [], _ => st
  | st, k :: ks, oks => removeAll settings (remove settings st k (oks.headD true)) ks oks.tail

/-- DatabaseObject::prune: stage the time-stale and size-stale keys, then
remove each one through the normal remove path (optimize() afterwards only
schedules timers). -/
def prune (settings : Settings) (st : DbState) (now : Nat) (oks : List Bool) : DbState :=
  let ct := collectTimePrune settings st now
  let cs := collectSizePrune settings ct.1 ct.2.1 ct.2.2
  removeAll settings ct.1 cs.1 oks

/-- The initial state right after writeHeader on a fresh binlog: empty
index and sets, and a time point of the current unixtime when tracking is
enabled, zero otherwise. -/
def initialState (settings : Settings) (now : Nat) : DbState :=
  let sys := if settings.trackEstimatedTime then now else 0
  ⟨[], 0, 0, 0, [], [], ⟨sys, sys⟩, [], 0, []⟩

/-- A public operation together with its environment inputs: wall-clock
readings, the drawn place for a fresh put, and the write outcomes. -/
inductive DbOp where
  | putOp (key : Nat) (value : List Nat) (now newPlace : Nat) (binlogOk : Bool)
      (openRes : OpenResult) (writeOk bundleOk : Bool)
  | getOp (key : Nat) (now : Nat) (bundleOk : Bool)
  | removeOp (key : Nat) (bundleOk : Bool)
  | flushOp (now : Nat) (okRemove okAccess : Bool)
  | pruneOp (now : Nat) (oks : List Bool)

/-- Apply one public operation to the state (a put whose assertion would
fire is excluded from the contract and leaves the state unchanged). -/
def applyOp (settings : Settings) (st : DbState) : DbOp → DbState
  | DbOp.putOp key value now newPlace binlogOk openRes writeOk bundleOk =>
    match put settings st key value now newPlace binlogOk openRes writeOk bundleOk with
    | some pr => pr.1
    | none => st
  | DbOp.getOp key now bundleOk => (get settings st key now bundleOk).2
  | DbOp.removeOp key bundleOk => remove settings st key bundleOk
  | DbOp.flushOp now okRemove okAccess => writeBundles settings st now okRemove okAccess
  | DbOp.pruneOp now oks => prune settings st now oks

/-- Run a sequence of public operations. -/
def runOps (settings : Settings) (st : DbState) (ops : List DbOp) : DbState :=
  ops.foldl (applyOp settings) st

/-- Sum of the sizes of the entries looked up for a list of keys. -/
def keysSizes (m : List (Nat × Entry)) (ks : List Nat) : Int :=
  (ks.map (fun k => ((alookup k m).getD emptyEntry).size)).sum

/-- Structural well-formedness of the state: sorted index keys, totalSize
equal to the sum of the entry sizes, and positive entry sizes. -/
def BaseInv (st : DbState) : Prop :=
  SortedKeys st.map ∧ st.totalSize = sumSizes st.map
    ∧ ∀ kv ∈ st.map, 0 < kv.2.size

/-- Time bookkeeping facts that hold when time tracking is enabled: the
relative clock is positive and monotone above every entry's useTime and
above minimalEntryTime, every entry has a positive useTime at least
minimalEntryTime whenever the latter is non-zero, and a non-empty index
has a non-zero minimalEntryTime. -/
def TimeInv (st : DbState) : Prop :=
  1 ≤ st.time.relative ∧ st.minimalEntryTime ≤ st.time.relative ∧
  (∀ kv ∈ st.map, 0 < kv.2.useTime ∧ kv.2.useTime ≤ st.time.relative ∧
    (0 < st.minimalEntryTime → st.minimalEntryTime ≤ kv.2.useTime)) ∧
  (st.map ≠ [] → st.minimalEntryTime ≠ 0)

/-- Combined invariant preserved by every public operation. -/
def Inv (settings : Settings) (st : DbState) : Prop :=
  BaseInv st ∧ (settings.trackEstimatedTime = true → TimeInv st)

/-- Concrete tracked settings used by witnesses: maxDataSize 100, bundle
threshold 10, totalTimeLimit 60, totalSizeLimit 50. -/
def wSettingsTracked : Settings := ⟨100, 10, true, 60, 50, 1000, 0, 0⟩

/-- Concrete state with one entry of size 30 and useTime 5 at relative
time 100, used by witnesses. -/
def wStateOne : DbState :=
  ⟨[(1, ⟨2, 0, 0, 30, 5⟩)], 30, 5, 1, [], [], ⟨100, 100⟩, [], 0, []⟩

/-- Concrete untracked settings with totalSizeLimit 10 used by the prune
witness. -/
def wSettingsPrune : Settings := ⟨8, 10, false, 0, 10, 1000, 0, 0⟩

/-- Concrete over-limit state with three entries of size 5 used by the
prune witness. -/
def wStatePrune : DbState :=
  ⟨[(1, ⟨11, 0, 0, 5, 0⟩), (2, ⟨12, 0, 0, 5, 0⟩), (3, ⟨13, 0, 0, 5, 0⟩)],
    15, 0, 0, [], [], ⟨0, 0⟩, [], 0, []⟩

/-- Tracked settings with maxBundledRecords 1, under which recording a
single access immediately flushes a MultiAccess record. -/
def cSettingsBundleOne : Settings := ⟨100, 1, true, 0, 0, 1000, 0, 0⟩

/-- First put of the fast-path counterexample scenario: store key 1 with
value byte 7 at unixtime 5 into the fresh store. -/
def cFastPathFirst : Option (DbState × ErrorType) :=
  put cSettingsBundleOne (initialState cSettingsBundleOne 5) 1 [7] 5 3 true
    OpenResult.success true true

/-- The state after the first put of the fast-path scenario. -/
def cFastPathState : DbState :=
  match cFastPathFirst with
  | some pr => pr.1
  | none => initialState cSettingsBundleOne 5

/-- Second, identical put of the fast-path scenario. -/
def cFastPathSecond : Option (DbState × ErrorType) :=
  put cSettingsBundleOne cFastPathState 1 [7] 5 4 true OpenResult.success true true

/-- Tracked settings for the minimal-time counterexample scenario. -/
def cSettingsMin : Settings := ⟨100, 10, true, 0, 0, 1000, 0, 0⟩

/-- Operation list of the minimal-time counterexample: put key 1 at
relative time 5, put key 2 at relative time 10, then remove key 1. -/
def cMinOps : List DbOp :=
  [DbOp.putOp 1 [7] 5 3 true OpenResult.success true true,
   DbOp.putOp 2 [8, 9] 10 4 true OpenResult.success true true,
   DbOp.removeOp 1 true]

/-- Final state of the minimal-time counterexample scenario. -/
def cMinState : DbState := runOps cSettingsMin (initialState cSettingsMin 5) cMinOps

end CacheDb

namespace CacheDb

theorem alookup_eq_none_iff {α : Type} (k : Nat) (m : List (Nat × α)) :
    alookup k m = none ↔ ∀ kv ∈ m, kv.1 ≠ k := by
  induction m with
  | nil => simp [alookup]
  | cons kv rest ih =>
    by_cases h : kv.1 = k
    · simp [alookup, h]
    · simp [alookup, h, ih]

theorem alookup_mem {α : Type} {k : Nat} {v : α} {m : List (Nat × α)}
    (h : alookup k m = some v) : (k, v) ∈ m := by
  induction m with
  | nil => simp [alookup] at h
  | cons kv rest ih =>
    by_cases hk : kv.1 = k
    · simp [alookup, hk] at h
      subst hk
      rw [← h]
      exact List.mem_cons_self _ _
    · simp [alookup, hk] at h
      exact List.mem_cons_of_mem _ (ih h)

theorem mem_alookup {α : Type} {k : Nat} {v : α} {m : List (Nat × α)}
    (hs : SortedKeys m) (h : (k, v) ∈ m) : alookup k m = some v := by
  induction m with
  | nil => simp at h
  | cons kv rest ih =>
    rcases List.mem_cons.mp h with h1 | h1
    · rw [← h1]
      simp [alookup]
    · have hlt : kv.1 < k := by
        have := (List.pairwise_cons.mp hs).1 (k, v) h1
        exact this
      have hne : kv.1 ≠ k := Nat.ne_of_lt hlt
      simp [alookup, hne]
      exact ih (List.pairwise_cons.mp hs).2 h1

theorem alookup_ainsert_self {α : Type} (k : Nat) (v : α) (m : List (Nat × α)) :
    alookup k (ainsert k v m) = some v := by
  induction m with
  | nil => simp [ainsert, alookup]
  | cons kv rest ih =>
    by_cases h1 : k < kv.1
    · simp [ainsert, h1, alookup]
    · by_cases h2 : k = kv.1
      · simp [ainsert, h1, h2, alookup]
      · have hne : kv.1 ≠ k := fun h => h2 h.symm
        simp [ainsert, h1, h2, alookup, hne, ih]

theorem alookup_ainsert_ne {α : Type} {k k2 : Nat} (v : α) (m : List (Nat × α))
    (hne : k ≠ k2) : alookup k2 (ainsert k v m) = alookup k2 m := by
  induction m with
  | nil => simp [ainsert, alookup, hne]
  | cons kv rest ih =>
    by_cases h1 : k < kv.1
    · simp [ainsert, h1, alookup, hne]
    · by_cases h2 : k = kv.1
      · subst h2
        simp [ainsert, h1, alookup, hne]
      · simp [ainsert, h1, h2, alookup, ih]

theorem mem_ainsert {α : Type} {x : Nat × α} {k : Nat} {v : α} {m : List (Nat × α)}
    (h : x ∈ ainsert k v m) : x = (k, v) ∨ x ∈ m := by
  induction m with
  | nil => simpa [ainsert] using h
  | cons kv rest ih =>
    simp only [List.mem_cons]
    by_cases h1 : k < kv.1
    · simp only [ainsert, if_pos h1, List.mem_cons] at h
      tauto
    · by_cases h2 : k = kv.1
      · subst h2
        simp [ainsert] at h
        tauto
      · simp only [ainsert, if_neg h1, if_neg h2, List.mem_cons] at h
        rcases h with h | h
        · tauto
        · rcases ih h with h3 | h3 <;> tauto

theorem sorted_ainsert {α : Type} {m : List (Nat × α)} (k : Nat) (v : α)
    (hs : SortedKeys m) : SortedKeys (ainsert k v m) := by
  induction m with
  | nil => simp [ainsert, SortedKeys]
  | cons kv rest ih =>
    have hrest := (List.pairwise_cons.mp hs).2
    have hhead := (List.pairwise_cons.mp hs).1
    by_cases h1 : k < kv.1
    · simp only [SortedKeys, ainsert, if_pos h1]
      refine List.pairwise_cons.mpr ⟨?_, hs⟩
      intro y hy
      rcases List.mem_cons.mp hy with h | h
      · rw [h]; exact h1
      · exact Nat.lt_trans h1 (hhead y h)
    · by_cases h2 : k = kv.1
      · simp only [SortedKeys, ainsert, if_neg h1, if_pos h2]
        refine List.pairwise_cons.mpr ⟨?_, hrest⟩
        intro y hy
        rw [h2]
        exact hhead y hy
      · have hk : kv.1 < k := by omega
        simp only [SortedKeys, ainsert, if_neg h1, if_neg h2]
        refine List.pairwise_cons.mpr ⟨?_, ih hrest⟩
        intro y hy
        rcases mem_ainsert hy with h | h
        · rw [h]; exact hk
        · exact hhead y h

theorem sumSizes_nil : sumSizes [] = 0 := rfl

theorem sumSizes_cons (kv : Nat × Entry) (m : List (Nat × Entry)) :
    sumSizes (kv :: m) = kv.2.size + sumSizes m := by
  simp [sumSizes]

theorem sumSizes_ainsert (k : Nat) (e : Entry) (m : List (Nat × Entry))
    (hs : SortedKeys m) :
    sumSizes (ainsert k e m) = sumSizes m + e.size - ((alookup k m).getD emptyEntry).size := by
  induction m with
  | nil => simp [ainsert, alookup, sumSizes, emptyEntry]
  | cons kv rest ih =>
    have hrest := (List.pairwise_cons.mp hs).2
    have hhead := (List.pairwise_cons.mp hs).1
    by_cases h1 : k < kv.1
    · have hnone : alookup k (kv :: rest) = none := by
        rw [alookup_eq_none_iff]
        intro x hx
        rcases List.mem_cons.mp hx with h | h
        · rw [h]; omega
        · have := hhead x h
          omega
      rw [hnone]
      simp only [ainsert, if_pos h1]
      rw [sumSizes_cons]
      simp [emptyEntry]
      ring
    · by_cases h2 : k = kv.1
      · have hne : kv.1 = k := h2.symm
        simp only [ainsert, if_neg h1, if_pos h2]
        rw [sumSizes_cons, sumSizes_cons]
        simp [alookup, hne]
        ring
      · have hne : kv.1 ≠ k := fun h => h2 h.symm
        simp only [ainsert, if_neg h1, if_neg h2]
        rw [sumSizes_cons, sumSizes_cons, ih hrest]
        simp [alookup, hne]
        ring

theorem sumSizes_aerase (k : Nat) (m : List (Nat × Entry)) :
    sumSizes (aerase k m) = sumSizes m - ((alookup k m).getD emptyEntry).size := by
  induction m with
  | nil => simp [aerase, alookup, sumSizes, emptyEntry]
  | cons kv rest ih =>
    by_cases h : kv.1 = k
    · simp only [aerase, if_pos h]
      rw [sumSizes_cons]
      simp [alookup, h]
    · simp only [aerase, if_neg h]
      rw [sumSizes_cons, sumSizes_cons, ih]
      simp [alookup, h]
      ring

theorem mem_aerase {α : Type} {x : Nat × α} {k : Nat} {m : List (Nat × α)}
    (h : x ∈ aerase k m) : x ∈ m := by
  induction m with
  | nil => simp [aerase] at h
  | cons kv rest ih =>
    by_cases hk : kv.1 = k
    · simp only [aerase, if_pos hk] at h
      exact List.mem_cons_of_mem _ h
    · simp only [aerase, if_neg hk] at h
      rcases List.mem_cons.mp h with h | h
      · exact List.mem_cons.mpr (Or.inl h)
      · exact List.mem_cons_of_mem _ (ih h)

theorem sorted_aerase {α : Type} {m : List (Nat × α)} (k : Nat)
    (hs : SortedKeys m) : SortedKeys (aerase k m) := by
  induction m with
  | nil => simp [aerase, SortedKeys]
  | cons kv rest ih =>
    have hrest := (List.pairwise_cons.mp hs).2
    have hhead := (List.pairwise_cons.mp hs).1
    by_cases hk : kv.1 = k
    · simpa [aerase, hk] using hrest
    · simp only [aerase, if_neg hk]
      refine List.pairwise_cons.mpr ⟨?_, ih hrest⟩
      intro y hy
      exact hhead y (mem_aerase hy)

theorem mem_aerase_sorted {α : Type} {x : Nat × α} {k : Nat} {m : List (Nat × α)}
    (hs : SortedKeys m) (h : x ∈ aerase k m) : x ∈ m ∧ x.1 ≠ k := by
  induction m with
  | nil => simp [aerase] at h
  | cons kv rest ih =>
    have hrest := (List.pairwise_cons.mp hs).2
    have hhead := (List.pairwise_cons.mp hs).1
    by_cases hk : kv.1 = k
    · simp only [aerase, if_pos hk] at h
      refine ⟨List.mem_cons_of_mem _ h, ?_⟩
      have := hhead x h
      omega
    · simp only [aerase, if_neg hk] at h
      rcases List.mem_cons.mp h with h | h
      · exact ⟨List.mem_cons.mpr (Or.inl h), by rw [h]; exact hk⟩
      · rcases ih hrest h with ⟨h1, h2⟩
        exact ⟨List.mem_cons_of_mem _ h1, h2⟩

theorem alookup_aerase_ne {α : Type} {k k2 : Nat} (m : List (Nat × α))
    (hne : k2 ≠ k) : alookup k2 (aerase k m) = alookup k2 m := by
  induction m with
  | nil => simp [aerase]
  | cons kv rest ih =>
    by_cases hk : kv.1 = k
    · have h2 : kv.1 ≠ k2 := by omega
      simp only [aerase, if_pos hk, alookup, if_neg h2]
    · by_cases hk2 : kv.1 = k2
      · simp only [aerase, if_neg hk, alookup, if_pos hk2]
      · simp only [aerase, if_neg hk, alookup, if_neg hk2, ih]

theorem mem_insertSet {x k : Nat} {s : List Nat} :
    x ∈ insertSet k s ↔ x = k ∨ x ∈ s := by
  induction s with
  | nil => simp [insertSet]
  | cons y rest ih =>
    by_cases h1 : k < y
    · simp [insertSet, h1]
    · by_cases h2 : k = y
      · subst h2
        simp [insertSet, h1]
      · simp [insertSet, h1, h2, ih]
        tauto

theorem sorted_insertSet {k : Nat} {s : List Nat}
    (hs : List.Pairwise (· < ·) s) : List.Pairwise (· < ·) (insertSet k s) := by
  induction s with
  | nil => simp [insertSet]
  | cons y rest ih =>
    have hrest := (List.pairwise_cons.mp hs).2
    have hhead := (List.pairwise_cons.mp hs).1
    by_cases h1 : k < y
    · simp only [insertSet, if_pos h1]
      refine List.pairwise_cons.mpr ⟨?_, hs⟩
      intro z hz
      rcases List.mem_cons.mp hz with h | h
      · omega
      · have := hhead z h
        omega
    · by_cases h2 : k = y
      · subst h2
        simpa [insertSet, h1] using hs
      · simp only [insertSet, if_neg h1, if_neg h2]
        refine List.pairwise_cons.mpr ⟨?_, ih hrest⟩
        intro z hz
        rcases mem_insertSet.mp hz with h | h
        · omega
        · exact hhead z h

theorem sortedKeys_iff_map_fst {α : Type} (m : List (Nat × α)) :
    SortedKeys m ↔ (m.map Prod.fst).Pairwise (· < ·) := by
  rw [List.pairwise_map]
  exact Iff.rfl

theorem setUseTime_map_fst (k t : Nat) (m : List (Nat × Entry)) :
    (setUseTime k t m).map Prod.fst = m.map Prod.fst := by
  induction m with
  | nil => rfl
  | cons kv rest ih =>
    simp only [setUseTime, List.map_cons] at ih ⊢
    rw [ih]
    by_cases h : kv.1 = k <;> simp [h]

theorem sorted_setUseTime {k t : Nat} {m : List (Nat × Entry)}
    (hs : SortedKeys m) : SortedKeys (setUseTime k t m) := by
  rw [sortedKeys_iff_map_fst, setUseTime_map_fst]
  exact (sortedKeys_iff_map_fst m).mp hs

theorem sumSizes_setUseTime (k t : Nat) (m : List (Nat × Entry)) :
    sumSizes (setUseTime k t m) = sumSizes m := by
  induction m with
  | nil => rfl
  | cons kv rest ih =>
    simp only [setUseTime, List.map_cons] at ih ⊢
    rw [sumSizes_cons, sumSizes_cons, ih]
    by_cases h : kv.1 = k <;> simp [h]

theorem alookup_setUseTime (k t k2 : Nat) (m : List (Nat × Entry)) :
    alookup k2 (setUseTime k t m) =
      (alookup k2 m).map (fun e => if k2 = k then { e with useTime := t } else e) := by
  induction m with
  | nil => simp [setUseTime, alookup]
  | cons kv rest ih =>
    simp only [setUseTime, List.map_cons] at ih ⊢
    by_cases h : kv.1 = k2
    · by_cases hk : kv.1 = k
      · have h2 : k2 = k := by omega
        simp [alookup, h, hk, h2]
      · have h2 : ¬k2 = k := by omega
        simp [alookup, h, hk, h2]
    · by_cases hk : kv.1 = k
      · have h2 : ¬k = k2 := by omega
        simp [alookup, h, hk, h2, ih]
      · simp [alookup, h, hk, ih]

theorem mem_setUseTime {x : Nat × Entry} {k t : Nat} {m : List (Nat × Entry)}
    (h : x ∈ setUseTime k t m) :
    ∃ y ∈ m, x.1 = y.1 ∧ x.2.size = y.2.size
      ∧ (x.2.useTime = y.2.useTime ∨ x.2.useTime = t) := by
  rcases List.mem_map.mp h with ⟨y, hy, hxy⟩
  refine ⟨y, hy, ?_⟩
  by_cases hk : y.1 = k
  · rw [if_pos hk] at hxy
    rw [← hxy]
    exact ⟨rfl, rfl, Or.inr rfl⟩
  · rw [if_neg hk] at hxy
    rw [← hxy]
    exact ⟨rfl, rfl, Or.inl rfl⟩

theorem bumpUseTimes_nil (t : Nat) (m : List (Nat × Entry)) :
    bumpUseTimes [] t m = m := rfl

theorem bumpUseTimes_cons (k : Nat) (ks : List Nat) (t : Nat) (m : List (Nat × Entry)) :
    bumpUseTimes (k :: ks) t m = bumpUseTimes ks t (setUseTime k t m) := rfl

theorem bumpUseTimes_map_fst (ks : List Nat) (t : Nat) (m : List (Nat × Entry)) :
    (bumpUseTimes ks t m).map Prod.fst = m.map Prod.fst := by
  induction ks generalizing m with
  | nil => rfl
  | cons k ks ih =>
    rw [bumpUseTimes_cons, ih, setUseTime_map_fst]

theorem sorted_bumpUseTimes {ks : List Nat} {t : Nat} {m : List (Nat × Entry)}
    (hs : SortedKeys m) : SortedKeys (bumpUseTimes ks t m) := by
  rw [sortedKeys_iff_map_fst, bumpUseTimes_map_fst]
  exact (sortedKeys_iff_map_fst m).mp hs

theorem sumSizes_bumpUseTimes (ks : List Nat) (t : Nat) (m : List (Nat × Entry)) :
    sumSizes (bumpUseTimes ks t m) = sumSizes m := by
  induction ks generalizing m with
  | nil => rfl
  | cons k ks ih =>
    rw [bumpUseTimes_cons, ih, sumSizes_setUseTime]

theorem mem_bumpUseTimes {x : Nat × Entry} {ks : List Nat} {t : Nat}
    {m : List (Nat × Entry)} (h : x ∈ bumpUseTimes ks t m) :
    ∃ y ∈ m, x.1 = y.1 ∧ x.2.size = y.2.size
      ∧ (x.2.useTime = y.2.useTime ∨ x.2.useTime = t) := by
  induction ks generalizing m with
  | nil => exact ⟨x, h, rfl, rfl, Or.inl rfl⟩
  | cons k ks ih =>
    rw [bumpUseTimes_cons] at h
    rcases ih h with ⟨y, hy, h1, h2, h3⟩
    rcases mem_setUseTime hy with ⟨z, hz, g1, g2, g3⟩
    refine ⟨z, hz, h1.trans g1, h2.trans g2, ?_⟩
    rcases h3 with h3 | h3
    · rcases g3 with g3 | g3
      · exact Or.inl (h3.trans g3)
      · exact Or.inr (h3.trans g3)
    · exact Or.inr h3

theorem bumpUseTimes_ne_nil {ks : List Nat} {t : Nat} {m : List (Nat × Entry)}
    (h : m ≠ []) : bumpUseTimes ks t m ≠ [] := by
  intro hc
  apply h
  have := bumpUseTimes_map_fst ks t m
  rw [hc] at this
  exact List.map_eq_nil_iff.mp this.symm

theorem alookup_bumpUseTimes (ks : List Nat) (t k2 : Nat) (m : List (Nat × Entry)) :
    alookup k2 (bumpUseTimes ks t m) =
      (alookup k2 m).map (fun e => if k2 ∈ ks then { e with useTime := t } else e) := by
  induction ks generalizing m with
  | nil =>
    rw [bumpUseTimes_nil]
    cases alookup k2 m <;> simp
  | cons k ks ih =>
    rw [bumpUseTimes_cons, ih, alookup_setUseTime]
    cases h : alookup k2 m
    · rfl
    · by_cases h1 : k2 = k
      · by_cases h2 : k2 ∈ ks <;> simp [h1, h2, List.mem_cons]
      · by_cases h2 : k2 ∈ ks <;> simp [h1, h2, List.mem_cons]

theorem pruneBeforeTime_eq_spec (settings : Settings) (st : DbState) (now : Nat) :
    pruneBeforeTime settings st now =
      (if settings.totalTimeLimit = 0 then 0
       else countRelativeTime st now - settings.totalTimeLimit) := by
  unfold pruneBeforeTime
  by_cases h : settings.totalTimeLimit = 0
  · simp [h]
  · by_cases h2 : countRelativeTime st now > settings.totalTimeLimit
    · simp [h, h2]
    · rw [if_neg, if_neg h]
      · omega
      · rintro ⟨h3, h4⟩
        exact h2 h4

/-- Claim C3: with time tracking enabled and a non-empty index,
startDelayedPruning decides to prune now exactly when the size limit is
positive and exceeded, or minimalEntryTime lies in the half-open interval
from zero (exclusive) to pruneBeforeTime (inclusive), where pruneBeforeTime
is the current relative time minus totalTimeLimit clamped at zero, and zero
when totalTimeLimit is zero. -/
theorem startDelayedPruning_prunes_iff (settings : Settings) (st : DbState) (now : Nat)
    (ht : settings.trackEstimatedTime = true) (hm : st.map ≠ []) :
    (startDelayedPruning settings st now = true ↔
      ((0 < settings.totalSizeLimit ∧ settings.totalSizeLimit < st.totalSize) ∨
        (0 < st.minimalEntryTime ∧ st.minimalEntryTime ≤
          (if settings.totalTimeLimit = 0 then 0
           else countRelativeTime st now - settings.totalTimeLimit)))) := by
  rw [← pruneBeforeTime_eq_spec]
  simp only [startDelayedPruning]
  rw [if_neg (by simp [ht, hm])]
  split_ifs with hA hB
  · exact iff_of_true rfl (Or.inl ⟨hA.1, hA.2⟩)
  · exact iff_of_true rfl (Or.inr ⟨Nat.pos_of_ne_zero hB.1, hB.2⟩)
  · refine iff_of_false (by simp) ?_
    rintro (h | h)
    · exact hA ⟨h.1, h.2⟩
    · exact hB ⟨Nat.pos_iff_ne_zero.mp h.1, h.2⟩

/-- Witness for claim C3 at a concrete tracked state whose minimal entry
time 5 falls inside the prune window at unixtime 150. -/
theorem startDelayedPruning_prunes_iff_witness :
    startDelayedPruning wSettingsTracked wStateOne 150 = true :=
  (startDelayedPruning_prunes_iff wSettingsTracked wStateOne 150 rfl
    (by decide)).mpr (by decide)

/-- Claim C4: checkCompactor starts a compaction exactly when no compactor
runs, compactAfterExcess is positive and not above the binlog excess
length, the full-size ratio gate passes (compactAfterFullSize zero or the
integer cross-multiplication holds), and the monotonic time has reached
the stored next attempt. -/
theorem checkCompactor_starts_iff (settings : Settings) (hasCompactor : Bool)
    (excess size nowMono nextAttempt : Int) :
    (checkCompactor settings hasCompactor excess size nowMono nextAttempt = true ↔
      (hasCompactor = false ∧ 0 < settings.compactAfterExcess ∧
        (settings.compactAfterExcess : Int) ≤ excess ∧
        (settings.compactAfterFullSize = 0 ∨
          (settings.compactAfterExcess : Int) * size
            ≤ excess * (settings.compactAfterFullSize : Int)) ∧
        nextAttempt ≤ nowMono)) := by
  unfold checkCompactor
  split_ifs with h1 h2 h3
  · simp only [false_iff]
    rintro ⟨ha, hb, hc, _, _⟩
    rcases h1 with h | h | h
    · rw [ha] at h
      exact Bool.false_ne_true h
    · omega
    · omega
  · simp only [false_iff]
    rintro ⟨_, _, _, hd, _⟩
    rcases hd with hd | hd
    · exact h2.1 hd
    · exact absurd h2.2 (not_lt.mpr hd)
  · simp only [false_iff]
    rintro ⟨_, _, _, _, he⟩
    exact absurd h3 (not_lt.mpr he)
  · push_neg at h1 h2 h3
    refine iff_of_true rfl ⟨?_, Nat.pos_of_ne_zero h1.2.1, h1.2.2, ?_, h3⟩
    · exact (Bool.not_eq_true hasCompactor) ▸ h1.1
    · by_cases hz : settings.compactAfterFullSize = 0
      · exact Or.inl hz
      · exact Or.inr (h2 hz)

/-- Claim C8: a put with an empty value is exactly a remove followed by a
NoError completion; the resulting state is the remove state in full. -/
theorem put_empty_value_eq_remove (settings : Settings) (st : DbState) (key : Nat)
    (now newPlace : Nat) (binlogOk : Bool) (openRes : OpenResult)
    (writeOk bundleOk : Bool) :
    put settings st key [] now newPlace binlogOk openRes writeOk bundleOk =
      some (remove settings st key bundleOk, ErrorType.noError) := by
  unfold put
  rw [if_pos rfl]

/-- Claim C9: removing a key that is absent from the index invokes the
completion and leaves the entire state (index, aggregates, pending sets,
binlog, files) unchanged. -/
theorem remove_absent_key_noop (settings : Settings) (st : DbState) (key : Nat)
    (ok : Bool) (h : alookup key st.map = none) :
    remove settings st key ok = st := by
  unfold remove
  rw [h]

/-- Witness for claim C9: removing the absent key 42 from the concrete
one-entry state changes nothing. -/
theorem remove_absent_key_noop_witness :
    remove wSettingsTracked wStateOne 42 true = wStateOne :=
  remove_absent_key_noop wSettingsTracked wStateOne 42 true (by decide)

/-- Claim C10: flushing pending bundles consumes the removing and accessed
sets regardless of the binlog append outcome: a failed MultiRemove header
write discards the taken keys appending nothing and reporting nothing, and
writeMultiAccessBlock advances the time point and every listed entry's
useTime whether or not the append succeeds, so on failure the in-memory
state has advanced while the binlog is unchanged. -/
theorem bundle_flush_consumes_sets (st : DbState) (now : Nat) (ok : Bool) :
    (writeMultiRemove st false).removing = [] ∧
    (writeMultiRemove st false).binlog = st.binlog ∧
    (writeMultiRemove st false).binlogExcessLength = st.binlogExcessLength ∧
    (writeMultiRemove st false).map = st.map ∧
    (writeMultiRemove st ok).removing = [] ∧
    (writeMultiAccessBlock st now false).binlog = st.binlog ∧
    (writeMultiAccessBlock st now false).binlogExcessLength = st.binlogExcessLength ∧
    (writeMultiAccessBlock st now ok).accessed = [] ∧
    (writeMultiAccessBlock st now ok).time = countTimePoint st now ∧
    (writeMultiAccessBlock st now ok).map =
      bumpUseTimes st.accessed (countTimePoint st now).relative st.map := by
  unfold writeMultiRemove writeMultiAccessBlock
  by_cases h : st.removing = [] <;> cases ok <;> simp [h]

theorem readValueData_eq_nil_iff (st : DbState) (place : Nat) (size : Int)
    (hpos : 0 < size) :
    (readValueData st place size = [] ↔
      alookup place st.files = none ∨
        ∃ bs, alookup place st.files = some bs ∧ (bs.length : Int) < size) := by
  unfold readValueData
  cases h : alookup place st.files with
  | none => simp
  | some bs =>
    dsimp only
    have hT : (size.toNat : Int) = size := Int.toNat_of_nonneg (le_of_lt hpos)
    split_ifs with hc
    · refine iff_of_true rfl (Or.inr ⟨bs, rfl, ?_⟩)
      rcases Nat.le_total bs.length size.toNat with hle | hle
      · rw [Nat.min_eq_left hle] at hc
        omega
      · rw [Nat.min_eq_right hle] at hc
        omega
    · refine iff_of_false ?_ ?_
      · intro htake
        rcases List.take_eq_nil_iff.mp htake with h0 | h0
        · omega
        · rw [h0] at hc
          simp at hc
          omega
      · rintro (h2 | ⟨bs2, hbs2, hlt⟩)
        · exact h2.elim
        · have hbs : bs2 = bs := by
            injection hbs2 with h3
            exact h3.symm
          subst hbs
          push_neg at hc
          rcases Nat.le_total bs2.length size.toNat with hle | hle
          · rw [Nat.min_eq_left hle] at hc
            omega
          · rw [Nat.min_eq_right hle] at hc
            omega

theorem readValueData_length_eq (st : DbState) (place : Nat) (size : Int)
    (h : readValueData st place size ≠ []) :
    ((readValueData st place size).length : Int) = size := by
  unfold readValueData at h ⊢
  cases hl : alookup place st.files with
  | none =>
    rw [hl] at h
    simp at h
  | some bs =>
    rw [hl] at h
    dsimp only at h ⊢
    split_ifs at h ⊢ with hc
    · exact absurd rfl h
    · push_neg at hc
      rw [List.length_take, Nat.min_comm]
      exact hc

/-- Claim C7: get replies empty exactly when the key is pending removal,
absent from the index, the data file at the entry's place fails to open or
yields fewer than entry.size bytes, or the checksum of the bytes read
differs from the stored one; an empty reply leaves the state unchanged; a
non-empty reply consists of exactly entry.size bytes matching the stored
checksum and only records an access.  No error is surfaced in any case:
the reply type carries none. -/
theorem get_characterization (settings : Settings) (st : DbState) (key now : Nat)
    (ok : Bool) (hpos : ∀ kv ∈ st.map, 0 < kv.2.size) :
    ((get settings st key now ok).1 = [] ↔
      key ∈ st.removing ∨ alookup key st.map = none ∨
        (∃ e, alookup key st.map = some e ∧
          (alookup e.place st.files = none ∨
            (∃ bs, alookup e.place st.files = some bs ∧ (bs.length : Int) < e.size) ∨
            (readValueData st e.place e.size ≠ [] ∧
              CountChecksum (readValueData st e.place e.size) ≠ e.checksum)))) ∧
    ((get settings st key now ok).1 = [] → (get settings st key now ok).2 = st) ∧
    ((get settings st key now ok).1 ≠ [] →
      ∃ e, alookup key st.map = some e ∧
        (get settings st key now ok).1 = readValueData st e.place e.size ∧
        ((get settings st key now ok).1.length : Int) = e.size ∧
        CountChecksum (get settings st key now ok).1 = e.checksum ∧
        (get settings st key now ok).2 = recordEntryAccess settings st key now ok) := by
  by_cases hrem : key ∈ st.removing
  · have hg : get settings st key now ok = ([], st) := by
      unfold get
      rw [if_pos hrem]
    rw [hg]
    exact ⟨iff_of_true rfl (Or.inl hrem), fun _ => rfl, fun hne => absurd rfl hne⟩
  · cases hl : alookup key st.map with
    | none =>
      have hg : get settings st key now ok = ([], st) := by
        unfold get
        rw [if_neg hrem, hl]
      rw [hg]
      exact ⟨iff_of_true rfl (Or.inr (Or.inl rfl)), fun _ => rfl, fun hne => absurd rfl hne⟩
    | some e =>
      have hsize : 0 < e.size := hpos (key, e) (alookup_mem hl)
      by_cases hr : readValueData st e.place e.size = []
      · have hg : get settings st key now ok = ([], st) := by
          unfold get
          rw [if_neg hrem, hl]
          dsimp only
          rw [if_pos hr]
        rw [hg]
        refine ⟨iff_of_true rfl (Or.inr (Or.inr ⟨e, rfl, ?_⟩)), fun _ => rfl,
          fun hne => absurd rfl hne⟩
        rcases (readValueData_eq_nil_iff st e.place e.size hsize).mp hr with h | h
        · exact Or.inl h
        · exact Or.inr (Or.inl h)
      · by_cases hchk : CountChecksum (readValueData st e.place e.size) ≠ e.checksum
        · have hg : get settings st key now ok = ([], st) := by
            unfold get
            rw [if_neg hrem, hl]
            dsimp only
            rw [if_neg hr, if_pos hchk]
          rw [hg]
          exact ⟨iff_of_true rfl (Or.inr (Or.inr ⟨e, rfl, Or.inr (Or.inr ⟨hr, hchk⟩)⟩)),
            fun _ => rfl, fun hne => absurd rfl hne⟩
        · have hg : get settings st key now ok =
              (readValueData st e.place e.size, recordEntryAccess settings st key now ok) := by
            unfold get
            rw [if_neg hrem, hl]
            dsimp only
            rw [if_neg hr, if_neg hchk]
          rw [hg]
          refine ⟨iff_of_false hr ?_, fun h => absurd h hr, fun _ => ?_⟩
          · rintro (h | h | ⟨e2, he2, hin⟩)
            · exact hrem h
            · exact Option.noConfusion h
            · have he : e2 = e := by
                injection he2 with h3
                exact h3.symm
              rw [he] at hin
              rcases hin with h | h | ⟨_, hc⟩
              · exact hr ((readValueData_eq_nil_iff st e.place e.size hsize).mpr (Or.inl h))
              · exact hr ((readValueData_eq_nil_iff st e.place e.size hsize).mpr (Or.inr h))
              · exact hchk hc
          · exact ⟨e, rfl, rfl, readValueData_length_eq st e.place e.size hr,
              not_not.mp hchk, rfl⟩

/-- Witness for claim C7: getting key 1 from the concrete one-entry state
whose data file is missing replies empty and leaves the state unchanged. -/
theorem get_characterization_witness :
    (get wSettingsTracked wStateOne 1 100 true).2 = wStateOne :=
  (get_characterization wSettingsTracked wStateOne 1 100 true (by decide)).2.1 (by decide)

theorem baseInv_transport {stA stB : DbState} (hmap : stB.map = stA.map)
    (htot : stB.totalSize = stA.totalSize) (hb : BaseInv stA) : BaseInv stB := by
  unfold BaseInv at hb ⊢
  rw [hmap, htot]
  exact hb

theorem timeInv_transport {stA stB : DbState} (hmap : stB.map = stA.map)
    (hmin : stB.minimalEntryTime = stA.minimalEntryTime)
    (htime : stB.time = stA.time) (ht : TimeInv stA) : TimeInv stB := by
  unfold TimeInv at ht ⊢
  rw [hmap, hmin, htime]
  exact ht

theorem setMapEntry_map (settings : Settings) (st : DbState) (k : Nat) (e : Entry) :
    (setMapEntry settings st k e).map = ainsert k e st.map := rfl

theorem setMapEntry_totalSize (settings : Settings) (st : DbState) (k : Nat) (e : Entry) :
    (setMapEntry settings st k e).totalSize =
      st.totalSize + e.size - ((alookup k st.map).getD emptyEntry).size := rfl

theorem setMapEntry_time (settings : Settings) (st : DbState) (k : Nat) (e : Entry) :
    (setMapEntry settings st k e).time = st.time := rfl

theorem setMapEntry_min (settings : Settings) (st : DbState) (k : Nat) (e : Entry) :
    (setMapEntry settings st k e).minimalEntryTime =
      if e.useTime ≠ 0 ∧ (e.useTime < st.minimalEntryTime ∨ st.minimalEntryTime = 0)
      then e.useTime else st.minimalEntryTime := by
  unfold setMapEntry
  dsimp only
  split_ifs <;> rfl

theorem baseInv_setMapEntry (settings : Settings) (st : DbState) (k : Nat) (e : Entry)
    (hb : BaseInv st) (hpos : 0 < e.size) : BaseInv (setMapEntry settings st k e) := by
  obtain ⟨hs, ht, hp⟩ := hb
  refine ⟨?_, ?_, ?_⟩
  · rw [setMapEntry_map]
    exact sorted_ainsert k e hs
  · rw [setMapEntry_map, setMapEntry_totalSize, sumSizes_ainsert k e st.map hs, ht]
  · intro kv hkv
    rw [setMapEntry_map] at hkv
    rcases mem_ainsert hkv with h | h
    · rw [h]
      exact hpos
    · exact hp kv h

theorem timeInv_setMapEntry (settings : Settings) (st : DbState) (k : Nat) (e : Entry)
    (ht : TimeInv st) (hu : 0 < e.useTime) (hle : e.useTime ≤ st.time.relative) :
    TimeInv (setMapEntry settings st k e) := by
  obtain ⟨h1, h2, h3, h4⟩ := ht
  rw [TimeInv, setMapEntry_map, setMapEntry_time, setMapEntry_min]
  by_cases hc : e.useTime ≠ 0 ∧ (e.useTime < st.minimalEntryTime ∨ st.minimalEntryTime = 0)
  · rw [if_pos hc]
    refine ⟨h1, hle, ?_, fun _ => by omega⟩
    intro kv hkv
    rcases mem_ainsert hkv with h | h
    · rw [h]
      exact ⟨hu, hle, fun _ => le_refl _⟩
    · rcases hc.2 with hlt | hz
      · rcases h3 kv h with ⟨g1, g2, g3⟩
        exact ⟨g1, g2, fun _ => le_trans (le_of_lt hlt) (g3 (by omega))⟩
      · have : st.map = [] := by
          by_contra hne
          exact h4 hne hz
        rw [this] at h
        simp at h
  · rw [if_neg hc]
    have hmin : st.minimalEntryTime ≠ 0 ∧ st.minimalEntryTime ≤ e.useTime := by
      by_cases hz : st.minimalEntryTime = 0
      · exact absurd ⟨by omega, Or.inr hz⟩ hc
      · refine ⟨hz, ?_⟩
        by_contra hlt
        exact hc ⟨by omega, Or.inl (by omega)⟩
    refine ⟨h1, h2, ?_, fun _ => hmin.1⟩
    intro kv hkv
    rcases mem_ainsert hkv with h | h
    · rw [h]
      exact ⟨hu, hle, fun _ => hmin.2⟩
    · exact h3 kv h

theorem eraseMapEntry_none (st : DbState) (k : Nat)
    (h : alookup k st.map = none) : eraseMapEntry st k = st := by
  unfold eraseMapEntry
  rw [h]

theorem eraseMapEntry_some_map (st : DbState) (k : Nat) (e : Entry)
    (h : alookup k st.map = some e) : (eraseMapEntry st k).map = aerase k st.map := by
  unfold eraseMapEntry
  rw [h]

theorem eraseMapEntry_some_totalSize (st : DbState) (k : Nat) (e : Entry)
    (h : alookup k st.map = some e) :
    (eraseMapEntry st k).totalSize = st.totalSize - e.size := by
  unfold eraseMapEntry
  rw [h]

theorem eraseMapEntry_min (st : DbState) (k : Nat) :
    (eraseMapEntry st k).minimalEntryTime = st.minimalEntryTime := by
  unfold eraseMapEntry
  cases alookup k st.map <;> rfl

theorem eraseMapEntry_time (st : DbState) (k : Nat) :
    (eraseMapEntry st k).time = st.time := by
  unfold eraseMapEntry
  cases alookup k st.map <;> rfl

theorem eraseMapEntry_removing (st : DbState) (k : Nat) :
    (eraseMapEntry st k).removing = st.removing := by
  unfold eraseMapEntry
  cases alookup k st.map <;> rfl

theorem baseInv_eraseMapEntry (st : DbState) (k : Nat) (hb : BaseInv st) :
    BaseInv (eraseMapEntry st k) := by
  obtain ⟨hs, ht, hp⟩ := hb
  cases h : alookup k st.map with
  | none =>
    rw [eraseMapEntry_none st k h]
    exact ⟨hs, ht, hp⟩
  | some e =>
    refine ⟨?_, ?_, ?_⟩
    · rw [eraseMapEntry_some_map st k e h]
      exact sorted_aerase k hs
    · rw [eraseMapEntry_some_map st k e h, eraseMapEntry_some_totalSize st k e h,
        sumSizes_aerase, h, ht]
      rfl
    · intro kv hkv
      rw [eraseMapEntry_some_map st k e h] at hkv
      exact hp kv (mem_aerase hkv)

theorem timeInv_eraseMapEntry (st : DbState) (k : Nat) (ht : TimeInv st) :
    TimeInv (eraseMapEntry st k) := by
  obtain ⟨h1, h2, h3, h4⟩ := ht
  cases h : alookup k st.map with
  | none =>
    rw [eraseMapEntry_none st k h]
    exact ⟨h1, h2, h3, h4⟩
  | some e =>
    rw [TimeInv, eraseMapEntry_some_map st k e h, eraseMapEntry_min, eraseMapEntry_time]
    refine ⟨h1, h2, ?_, ?_⟩
    · intro kv hkv
      exact h3 kv (mem_aerase hkv)
    · intro hne
      apply h4
      intro hnil
      apply hne
      rw [hnil]
      rfl

theorem timeInv_applyTimePoint (st : DbState) (tp : EstimatedTimePoint)
    (ht : TimeInv st) : TimeInv (applyTimePoint st tp) := by
  obtain ⟨h1, h2, h3, h4⟩ := ht
  unfold applyTimePoint
  split_ifs with hgt
  · unfold TimeInv
    dsimp only
    refine ⟨by omega, by omega, ?_, h4⟩
    intro kv hkv
    rcases h3 kv hkv with ⟨g1, g2, g3⟩
    exact ⟨g1, by omega, g3⟩
  · exact ⟨h1, h2, h3, h4⟩

theorem applyTimePoint_rel_ge (st : DbState) (tp : EstimatedTimePoint) :
    tp.relative ≤ (applyTimePoint st tp).time.relative := by
  unfold applyTimePoint
  split_ifs with hgt
  · dsimp only
    omega
  · omega

theorem applyTimePoint_rel_mono (st : DbState) (tp : EstimatedTimePoint) :
    st.time.relative ≤ (applyTimePoint st tp).time.relative := by
  unfold applyTimePoint
  split_ifs with hgt
  · dsimp only
    omega
  · omega

theorem applyTimePoint_map (st : DbState) (tp : EstimatedTimePoint) :
    (applyTimePoint st tp).map = st.map := by
  unfold applyTimePoint
  split_ifs <;> rfl

theorem applyTimePoint_totalSize (st : DbState) (tp : EstimatedTimePoint) :
    (applyTimePoint st tp).totalSize = st.totalSize := by
  unfold applyTimePoint
  split_ifs <;> rfl

theorem countTimePoint_rel_ge (st : DbState) (now : Nat) :
    st.time.relative ≤ (countTimePoint st now).relative := by
  unfold countTimePoint countRelativeTime
  dsimp only
  omega

theorem inv_writeMultiRemove (settings : Settings) (st : DbState) (ok : Bool)
    (hI : Inv settings st) : Inv settings (writeMultiRemove st ok) := by
  unfold writeMultiRemove
  split_ifs with h1 h2
  · exact hI
  · exact ⟨baseInv_transport rfl rfl hI.1,
      fun htr => timeInv_transport rfl rfl rfl (hI.2 htr)⟩
  · exact ⟨baseInv_transport rfl rfl hI.1,
      fun htr => timeInv_transport rfl rfl rfl (hI.2 htr)⟩

theorem inv_writeMultiRemoveLazy (settings : Settings) (st : DbState) (ok : Bool)
    (hI : Inv settings st) : Inv settings (writeMultiRemoveLazy settings st ok) := by
  unfold writeMultiRemoveLazy
  split_ifs with h
  · exact inv_writeMultiRemove settings st ok hI
  · exact hI

theorem bumpUseTimes_nil_map (ks : List Nat) (t : Nat) :
    bumpUseTimes ks t [] = [] := by
  induction ks with
  | nil => rfl
  | cons k ks ih =>
    rw [bumpUseTimes_cons]
    exact ih

theorem writeMultiAccessBlock_map (st : DbState) (now : Nat) (ok : Bool) :
    (writeMultiAccessBlock st now ok).map =
      bumpUseTimes st.accessed (countTimePoint st now).relative st.map := by
  unfold writeMultiAccessBlock
  split_ifs <;> rfl

theorem writeMultiAccessBlock_min (st : DbState) (now : Nat) (ok : Bool) :
    (writeMultiAccessBlock st now ok).minimalEntryTime = st.minimalEntryTime := by
  unfold writeMultiAccessBlock
  split_ifs <;> rfl

theorem writeMultiAccessBlock_time (st : DbState) (now : Nat) (ok : Bool) :
    (writeMultiAccessBlock st now ok).time = countTimePoint st now := by
  unfold writeMultiAccessBlock
  split_ifs <;> rfl

theorem writeMultiAccessBlock_totalSize (st : DbState) (now : Nat) (ok : Bool) :
    (writeMultiAccessBlock st now ok).totalSize = st.totalSize := by
  unfold writeMultiAccessBlock
  split_ifs <;> rfl

theorem baseInv_writeMultiAccessBlock (st : DbState) (now : Nat) (ok : Bool)
    (hb : BaseInv st) : BaseInv (writeMultiAccessBlock st now ok) := by
  obtain ⟨hs, ht, hp⟩ := hb
  refine ⟨?_, ?_, ?_⟩
  · rw [writeMultiAccessBlock_map]
    exact sorted_bumpUseTimes hs
  · rw [writeMultiAccessBlock_map, writeMultiAccessBlock_totalSize,
      sumSizes_bumpUseTimes, ht]
  · intro kv hkv
    rw [writeMultiAccessBlock_map] at hkv
    rcases mem_bumpUseTimes hkv with ⟨y, hy, _, hsz, _⟩
    rw [hsz]
    exact hp y hy

theorem timeInv_writeMultiAccessBlock (st : DbState) (now : Nat) (ok : Bool)
    (ht : TimeInv st) : TimeInv (writeMultiAccessBlock st now ok) := by
  obtain ⟨h1, h2, h3, h4⟩ := ht
  have hrel := countTimePoint_rel_ge st now
  rw [TimeInv, writeMultiAccessBlock_map, writeMultiAccessBlock_min,
    writeMultiAccessBlock_time]
  refine ⟨by omega, by omega, ?_, ?_⟩
  · intro kv hkv
    rcases mem_bumpUseTimes hkv with ⟨y, hy, _, _, hut⟩
    rcases h3 y hy with ⟨g1, g2, g3⟩
    rcases hut with hut | hut
    · exact ⟨by omega, by omega, fun hm => by have g := g3 hm; omega⟩
    · exact ⟨by omega, by omega, fun hm => by omega⟩
  · intro hne
    apply h4
    intro hnil
    apply hne
    rw [hnil]
    exact bumpUseTimes_nil_map _ _

theorem inv_writeMultiAccessBlock (settings : Settings) (st : DbState) (now : Nat)
    (ok : Bool) (hI : Inv settings st) : Inv settings (writeMultiAccessBlock st now ok) :=
  ⟨baseInv_writeMultiAccessBlock st now ok hI.1,
    fun htr => timeInv_writeMultiAccessBlock st now ok (hI.2 htr)⟩

theorem inv_writeMultiAccess (settings : Settings) (st : DbState) (now : Nat)
    (ok : Bool) (hI : Inv settings st) : Inv settings (writeMultiAccess st now ok) := by
  unfold writeMultiAccess
  split_ifs with h
  · exact hI
  · exact inv_writeMultiAccessBlock settings st now ok hI

theorem inv_writeMultiAccessLazy (settings : Settings) (st : DbState) (now : Nat)
    (ok : Bool) (hI : Inv settings st) :
    Inv settings (writeMultiAccessLazy settings st now ok) := by
  unfold writeMultiAccessLazy
  split_ifs with h
  · exact inv_writeMultiAccessBlock settings st now ok hI
  · exact hI

theorem inv_writeBundles (settings : Settings) (st : DbState) (now : Nat)
    (okRemove okAccess : Bool) (hI : Inv settings st) :
    Inv settings (writeBundles settings st now okRemove okAccess) := by
  unfold writeBundles
  dsimp only
  split_ifs with h
  · exact inv_writeMultiAccess settings _ now okAccess
      (inv_writeMultiRemove settings st okRemove hI)
  · exact inv_writeMultiRemove settings st okRemove hI

theorem inv_recordEntryAccess (settings : Settings) (st : DbState) (key now : Nat)
    (ok : Bool) (hI : Inv settings st) :
    Inv settings (recordEntryAccess settings st key now ok) := by
  unfold recordEntryAccess
  split_ifs with h
  · apply inv_writeMultiAccessLazy
    exact ⟨baseInv_transport rfl rfl hI.1,
      fun htr => timeInv_transport rfl rfl rfl (hI.2 htr)⟩
  · exact hI

theorem inv_remove (settings : Settings) (st : DbState) (key : Nat) (ok : Bool)
    (hI : Inv settings st) : Inv settings (remove settings st key ok) := by
  unfold remove
  cases h : alookup key st.map with
  | none => exact hI
  | some e =>
    dsimp only
    have hI1 : Inv settings { st with removing := insertSet key st.removing } :=
      ⟨baseInv_transport rfl rfl hI.1,
        fun htr => timeInv_transport rfl rfl rfl (hI.2 htr)⟩
    have hI2 := inv_writeMultiRemoveLazy settings _ ok hI1
    have hI3 : Inv settings (eraseMapEntry
        (writeMultiRemoveLazy settings { st with removing := insertSet key st.removing } ok) key) :=
      ⟨baseInv_eraseMapEntry _ key hI2.1,
        fun htr => timeInv_eraseMapEntry _ key (hI2.2 htr)⟩
    exact ⟨baseInv_transport rfl rfl hI3.1,
      fun htr => timeInv_transport rfl rfl rfl (hI3.2 htr)⟩

theorem get_snd_cases (settings : Settings) (st : DbState) (key now : Nat) (ok : Bool) :
    (get settings st key now ok).2 = st ∨
    (get settings st key now ok).2 = recordEntryAccess settings st key now ok := by
  unfold get
  by_cases hrem : key ∈ st.removing
  · rw [if_pos hrem]
    exact Or.inl rfl
  · rw [if_neg hrem]
    cases hl : alookup key st.map with
    | none => exact Or.inl rfl
    | some e =>
      dsimp only
      split_ifs
      · exact Or.inl rfl
      · exact Or.inl rfl
      · exact Or.inr rfl

theorem inv_get (settings : Settings) (st : DbState) (key now : Nat) (ok : Bool)
    (hI : Inv settings st) : Inv settings (get settings st key now ok).2 := by
  rcases get_snd_cases settings st key now ok with h | h
  · rw [h]
    exact hI
  · rw [h]
    exact inv_recordEntryAccess settings st key now ok hI

theorem processRecordStore_baseInv (settings : Settings) (st : DbState)
    (r : StoreRecord) (st2 : DbState)
    (h : processRecordStore settings st r = some st2) (hb : BaseInv st) :
    BaseInv st2 := by
  unfold processRecordStore at h
  by_cases hguard : (r.size ≤ 0 ∨ r.size > settings.maxDataSize)
  · rw [if_pos hguard] at h
    exact Option.noConfusion h
  · rw [if_neg hguard] at h
    push_neg at hguard
    cases hr : r.time with
    | none =>
      rw [hr] at h
      dsimp only at h
      injection h with h2
      rw [← h2]
      exact baseInv_setMapEntry settings st r.key _ hb (by dsimp only; omega)
    | some tp =>
      rw [hr] at h
      dsimp only at h
      injection h with h2
      rw [← h2]
      refine baseInv_setMapEntry settings _ r.key _ ?_ (by dsimp only; omega)
      exact baseInv_transport (applyTimePoint_map st tp) (applyTimePoint_totalSize st tp) hb

theorem processRecordStore_timeInv (settings : Settings) (st : DbState)
    (r : StoreRecord) (tp : EstimatedTimePoint) (st2 : DbState)
    (h : processRecordStore settings st r = some st2) (hr : r.time = some tp)
    (ht : TimeInv st) (htp : 1 ≤ tp.relative) : TimeInv st2 := by
  unfold processRecordStore at h
  by_cases hguard : (r.size ≤ 0 ∨ r.size > settings.maxDataSize)
  · rw [if_pos hguard] at h
    exact Option.noConfusion h
  · rw [if_neg hguard] at h
    rw [hr] at h
    dsimp only at h
    injection h with h2
    rw [← h2]
    exact timeInv_setMapEntry settings _ r.key _ (timeInv_applyTimePoint st tp ht)
      htp (applyTimePoint_rel_ge st tp)

theorem inv_writeKeyPlaceCommit (settings : Settings) (st : DbState)
    (tf : Option EstimatedTimePoint) (key : Nat) (value : List Nat)
    (checksum place : Nat) (ok : Bool) (hI : Inv settings st)
    (htf : settings.trackEstimatedTime = true → ∃ tp, tf = some tp ∧ 1 ≤ tp.relative) :
    Inv settings (writeKeyPlaceCommit settings st tf key value checksum place ok).2 := by
  unfold writeKeyPlaceCommit
  dsimp only
  by_cases hok : ok = true
  · rw [if_pos hok]
    have hI2 : Inv settings { st with binlog := st.binlog ++
        [BinRecord.store key place 0 checksum (value.length : Int) tf] } :=
      ⟨baseInv_transport rfl rfl hI.1,
        fun htr => timeInv_transport rfl rfl rfl (hI.2 htr)⟩
    cases hp : processRecordStore settings
        { st with binlog := st.binlog ++
          [BinRecord.store key place 0 checksum (value.length : Int) tf] }
        ⟨key, place, 0, checksum, (value.length : Int), tf⟩ with
    | none => exact hI2
    | some st3 =>
      refine ⟨processRecordStore_baseInv settings _ _ st3 hp hI2.1, ?_⟩
      intro htr
      rcases htf htr with ⟨tp, htp1, htp2⟩
      exact processRecordStore_timeInv settings _ _ tp st3 hp htp1 (hI2.2 htr) htp2
  · rw [if_neg hok]
    exact hI

theorem inv_writeKeyPlaceGeneric (settings : Settings) (st : DbState)
    (tf : Option EstimatedTimePoint) (key : Nat) (value : List Nat)
    (checksum newPlace : Nat) (ok : Bool) (hI : Inv settings st)
    (htf : settings.trackEstimatedTime = true → ∃ tp, tf = some tp ∧ 1 ≤ tp.relative) :
    Inv settings (writeKeyPlaceGeneric settings st tf key value checksum newPlace ok).2 := by
  unfold writeKeyPlaceGeneric
  cases hl : alookup key st.map with
  | none =>
    dsimp only
    exact inv_writeKeyPlaceCommit settings st tf key value checksum newPlace ok hI htf
  | some already =>
    dsimp only
    split_ifs with hfast
    · exact hI
    · exact inv_writeKeyPlaceCommit settings st tf key value checksum already.place ok hI htf

theorem inv_writeKeyPlace (settings : Settings) (st : DbState) (key : Nat)
    (value : List Nat) (checksum newPlace : Nat) (ok : Bool) (now : Nat)
    (hI : Inv settings st) :
    Inv settings (writeKeyPlace settings st key value checksum newPlace ok now).2 := by
  unfold writeKeyPlace
  by_cases htr : settings.trackEstimatedTime = true
  · rw [if_neg (by simp [htr])]
    dsimp only
    apply inv_writeKeyPlaceGeneric settings st _ key value checksum newPlace ok hI
    intro h
    refine ⟨_, rfl, ?_⟩
    have h1 := (hI.2 h).1
    have h2 := countTimePoint_rel_ge st now
    split_ifs with hsnap
    · exact h1
    · omega
  · rw [if_pos htr]
    exact inv_writeKeyPlaceGeneric settings st none key value checksum newPlace ok hI
      (fun h => absurd h htr)

theorem inv_put (settings : Settings) (st : DbState) (key : Nat) (value : List Nat)
    (now newPlace : Nat) (binlogOk : Bool) (openRes : OpenResult)
    (writeOk bundleOk : Bool) (pr : DbState × ErrorType)
    (h : put settings st key value now newPlace binlogOk openRes writeOk bundleOk = some pr)
    (hI : Inv settings st) : Inv settings pr.1 := by
  unfold put at h
  by_cases hv : value = []
  · rw [if_pos hv] at h
    injection h with h2
    rw [← h2]
    exact inv_remove settings st key bundleOk hI
  · rw [if_neg hv] at h
    dsimp only at h
    by_cases hsize : (value.length : Int) > settings.maxDataSize
    · rw [if_pos hsize] at h
      exact Option.noConfusion h
    · rw [if_neg hsize] at h
      have hI1 : Inv settings { st with removing := eraseSet key st.removing } :=
        ⟨baseInv_transport rfl rfl hI.1,
          fun htr => timeInv_transport rfl rfl rfl (hI.2 htr)⟩
      have hWI := inv_writeKeyPlace settings { st with removing := eraseSet key st.removing }
        key value (CountChecksum value) newPlace binlogOk now hI1
      cases hw : (writeKeyPlace settings { st with removing := eraseSet key st.removing }
          key value (CountChecksum value) newPlace binlogOk now).1 with
      | none =>
        rw [hw] at h
        injection h with h2
        rw [← h2]
        exact hWI
      | some mp =>
        cases mp with
        | none =>
          rw [hw] at h
          injection h with h2
          rw [← h2]
          exact inv_recordEntryAccess settings _ key now bundleOk hWI
        | some place =>
          rw [hw] at h
          cases openRes with
          | failed =>
            injection h with h2
            rw [← h2]
            exact hWI
          | lockFailed =>
            injection h with h2
            rw [← h2]
            exact hWI
          | success =>
            dsimp only at h
            by_cases hwo : writeOk = true
            · rw [if_pos hwo] at h
              injection h with h2
              rw [← h2]
              exact ⟨baseInv_transport rfl rfl hWI.1,
                fun htr => timeInv_transport rfl rfl rfl (hWI.2 htr)⟩
            · rw [if_neg hwo] at h
              injection h with h2
              rw [← h2]
              apply inv_remove
              exact ⟨baseInv_transport rfl rfl hWI.1,
                fun htr => timeInv_transport rfl rfl rfl (hWI.2 htr)⟩

theorem writeMultiRemove_map (st : DbState) (ok : Bool) :
    (writeMultiRemove st ok).map = st.map := by
  unfold writeMultiRemove
  split_ifs <;> rfl

theorem writeMultiRemove_min (st : DbState) (ok : Bool) :
    (writeMultiRemove st ok).minimalEntryTime = st.minimalEntryTime := by
  unfold writeMultiRemove
  split_ifs <;> rfl

theorem writeMultiRemove_time (st : DbState) (ok : Bool) :
    (writeMultiRemove st ok).time = st.time := by
  unfold writeMultiRemove
  split_ifs <;> rfl

theorem writeMultiRemove_totalSize (st : DbState) (ok : Bool) :
    (writeMultiRemove st ok).totalSize = st.totalSize := by
  unfold writeMultiRemove
  split_ifs <;> rfl

theorem writeMultiRemoveLazy_map (settings : Settings) (st : DbState) (ok : Bool) :
    (writeMultiRemoveLazy settings st ok).map = st.map := by
  unfold writeMultiRemoveLazy
  split_ifs with h
  · exact writeMultiRemove_map st ok
  · rfl

theorem writeMultiRemoveLazy_min (settings : Settings) (st : DbState) (ok : Bool) :
    (writeMultiRemoveLazy settings st ok).minimalEntryTime = st.minimalEntryTime := by
  unfold writeMultiRemoveLazy
  split_ifs with h
  · exact writeMultiRemove_min st ok
  · rfl

theorem writeMultiRemoveLazy_time (settings : Settings) (st : DbState) (ok : Bool) :
    (writeMultiRemoveLazy settings st ok).time = st.time := by
  unfold writeMultiRemoveLazy
  split_ifs with h
  · exact writeMultiRemove_time st ok
  · rfl

theorem writeMultiRemoveLazy_totalSize (settings : Settings) (st : DbState) (ok : Bool) :
    (writeMultiRemoveLazy settings st ok).totalSize = st.totalSize := by
  unfold writeMultiRemoveLazy
  split_ifs with h
  · exact writeMultiRemove_totalSize st ok
  · rfl

theorem remove_min (settings : Settings) (st : DbState) (key : Nat) (ok : Bool) :
    (remove settings st key ok).minimalEntryTime = st.minimalEntryTime := by
  unfold remove
  cases h : alookup key st.map with
  | none => rfl
  | some e =>
    dsimp only
    rw [eraseMapEntry_min, writeMultiRemoveLazy_min]

theorem remove_time (settings : Settings) (st : DbState) (key : Nat) (ok : Bool) :
    (remove settings st key ok).time = st.time := by
  unfold remove
  cases h : alookup key st.map with
  | none => rfl
  | some e =>
    dsimp only
    rw [eraseMapEntry_time, writeMultiRemoveLazy_time]

theorem remove_map_none (settings : Settings) (st : DbState) (key : Nat) (ok : Bool)
    (h : alookup key st.map = none) : (remove settings st key ok).map = st.map := by
  unfold remove
  rw [h]

theorem remove_map_some (settings : Settings) (st : DbState) (key : Nat) (ok : Bool)
    (e : Entry) (h : alookup key st.map = some e) :
    (remove settings st key ok).map = aerase key st.map := by
  unfold remove
  rw [h]
  dsimp only
  have hm : (writeMultiRemoveLazy settings
      { st with removing := insertSet key st.removing } ok).map = st.map :=
    writeMultiRemoveLazy_map settings _ ok
  have hl2 : alookup key (writeMultiRemoveLazy settings
      { st with removing := insertSet key st.removing } ok).map = some e := by
    rw [hm]
    exact h
  rw [eraseMapEntry_some_map _ key e hl2, hm]

theorem remove_totalSize_some (settings : Settings) (st : DbState) (key : Nat)
    (ok : Bool) (e : Entry) (h : alookup key st.map = some e) :
    (remove settings st key ok).totalSize = st.totalSize - e.size := by
  unfold remove
  rw [h]
  dsimp only
  have hm : (writeMultiRemoveLazy settings
      { st with removing := insertSet key st.removing } ok).map = st.map :=
    writeMultiRemoveLazy_map settings _ ok
  have hl2 : alookup key (writeMultiRemoveLazy settings
      { st with removing := insertSet key st.removing } ok).map = some e := by
    rw [hm]
    exact h
  rw [eraseMapEntry_some_totalSize _ key e hl2, writeMultiRemoveLazy_totalSize]

theorem baseInv_remove (settings : Settings) (st : DbState) (key : Nat) (ok : Bool)
    (hb : BaseInv st) : BaseInv (remove settings st key ok) := by
  unfold remove
  cases h : alookup key st.map with
  | none => exact hb
  | some e =>
    dsimp only
    have hb2 : BaseInv (writeMultiRemoveLazy settings
        { st with removing := insertSet key st.removing } ok) :=
      baseInv_transport (writeMultiRemoveLazy_map settings _ ok)
        (writeMultiRemoveLazy_totalSize settings _ ok) hb
    exact baseInv_transport rfl rfl (baseInv_eraseMapEntry _ key hb2)

theorem removeAll_min (settings : Settings) :
    ∀ (ks : List Nat) (oks : List Bool) (st : DbState),
      (removeAll settings st ks oks).minimalEntryTime = st.minimalEntryTime := by
  intro ks
  induction ks with
  | nil => intro oks st; rfl
  | cons k ks ih =>
    intro oks st
    rw [removeAll, ih, remove_min]

theorem removeAll_time (settings : Settings) :
    ∀ (ks : List Nat) (oks : List Bool) (st : DbState),
      (removeAll settings st ks oks).time = st.time := by
  intro ks
  induction ks with
  | nil => intro oks st; rfl
  | cons k ks ih =>
    intro oks st
    rw [removeAll, ih, remove_time]

theorem baseInv_removeAll (settings : Settings) :
    ∀ (ks : List Nat) (oks : List Bool) (st : DbState), BaseInv st →
      BaseInv (removeAll settings st ks oks) := by
  intro ks
  induction ks with
  | nil => intro oks st hb; exact hb
  | cons k ks ih =>
    intro oks st hb
    rw [removeAll]
    exact ih _ _ (baseInv_remove settings st k _ hb)

theorem removeAll_mem (settings : Settings) :
    ∀ (ks : List Nat) (oks : List Bool) (st : DbState), SortedKeys st.map →
      ∀ kv ∈ (removeAll settings st ks oks).map, kv ∈ st.map ∧ kv.1 ∉ ks := by
  intro ks
  induction ks with
  | nil =>
    intro oks st hs kv hkv
    exact ⟨hkv, by simp⟩
  | cons k ks ih =>
    intro oks st hs kv hkv
    rw [removeAll] at hkv
    cases h : alookup k st.map with
    | none =>
      have hs2 : SortedKeys (remove settings st k (oks.headD true)).map := by
        rw [remove_map_none settings st k _ h]
        exact hs
      rcases ih _ _ hs2 kv hkv with ⟨h1, h2⟩
      rw [remove_map_none settings st k _ h] at h1
      refine ⟨h1, ?_⟩
      intro hmem
      rcases List.mem_cons.mp hmem with hk | hk
      · have hl : alookup kv.1 st.map = some kv.2 := mem_alookup hs h1
        rw [hk, h] at hl
        exact Option.noConfusion hl
      · exact h2 hk
    | some e =>
      have hs2 : SortedKeys (remove settings st k (oks.headD true)).map := by
        rw [remove_map_some settings st k _ e h]
        exact sorted_aerase k hs
      rcases ih _ _ hs2 kv hkv with ⟨h1, h2⟩
      rw [remove_map_some settings st k _ e h] at h1
      rcases mem_aerase_sorted hs h1 with ⟨h3, h4⟩
      refine ⟨h3, ?_⟩
      intro hmem
      rcases List.mem_cons.mp hmem with hk | hk
      · exact h4 hk
      · exact h2 hk

theorem removeAll_sorted (settings : Settings) :
    ∀ (ks : List Nat) (oks : List Bool) (st : DbState), SortedKeys st.map →
      SortedKeys (removeAll settings st ks oks).map := by
  intro ks
  induction ks with
  | nil => intro oks st hs; exact hs
  | cons k ks ih =>
    intro oks st hs
    rw [removeAll]
    apply ih
    cases h : alookup k st.map with
    | none =>
      rw [remove_map_none settings st k _ h]
      exact hs
    | some e =>
      rw [remove_map_some settings st k _ e h]
      exact sorted_aerase k hs

theorem collectTimePrune_map (settings : Settings) (st : DbState) (now : Nat) :
    (collectTimePrune settings st now).1.map = st.map := by
  unfold collectTimePrune
  dsimp only
  split_ifs <;> rfl

theorem collectTimePrune_totalSize (settings : Settings) (st : DbState) (now : Nat) :
    (collectTimePrune settings st now).1.totalSize = st.totalSize := by
  unfold collectTimePrune
  dsimp only
  split_ifs <;> rfl

theorem collectTimePrune_time (settings : Settings) (st : DbState) (now : Nat) :
    (collectTimePrune settings st now).1.time = st.time := by
  unfold collectTimePrune
  dsimp only
  split_ifs <;> rfl

theorem timePruneScan_stale_spec (before : Nat) :
    ∀ (m : List (Nat × Entry)) (minT minC : Nat) (stale : List Nat) (sz : Int),
      (timePruneScan before m minT minC stale sz).2.2.1 =
          stale ++ (m.filter (fun kv => kv.2.useTime ≤ before)).map Prod.fst ∧
      (timePruneScan before m minT minC stale sz).2.2.2 =
          sz + sumSizes (m.filter (fun kv => kv.2.useTime ≤ before)) := by
  intro m
  induction m with
  | nil =>
    intro minT minC stale sz
    simp [timePruneScan, sumSizes]
  | cons kv rest ih =>
    intro minT minC stale sz
    obtain ⟨k, e⟩ := kv
    by_cases hb : e.useTime ≤ before
    · rw [timePruneScan, if_pos hb]
      have hfil : ((k, e) :: rest).filter (fun kv => kv.2.useTime ≤ before) =
          (k, e) :: rest.filter (fun kv => kv.2.useTime ≤ before) := by
        simp [List.filter_cons, hb]
      rw [hfil]
      rcases ih minT minC (stale ++ [k]) (sz + e.size) with ⟨h1, h2⟩
      constructor
      · rw [h1]
        simp
      · rw [h2, sumSizes_cons]
        ring
    · have hfil : ((k, e) :: rest).filter (fun kv => kv.2.useTime ≤ before) =
          rest.filter (fun kv => kv.2.useTime ≤ before) := by
        simp [List.filter_cons, hb]
      rw [timePruneScan, if_neg hb, hfil]
      split_ifs with h1 h2
      · exact ih e.useTime 1 stale sz
      · exact ih minT (minC + 1) stale sz
      · exact ih minT minC stale sz

theorem timePruneScan_min_spec (before : Nat) :
    ∀ (m : List (Nat × Entry)) (minT minC : Nat) (stale : List Nat) (sz : Int),
      (minT ≠ 0 → (timePruneScan before m minT minC stale sz).1 ≠ 0 ∧
          (timePruneScan before m minT minC stale sz).1 ≤ minT) ∧
      (∀ kv ∈ m, before < kv.2.useTime →
        (timePruneScan before m minT minC stale sz).1 ≠ 0 ∧
        (timePruneScan before m minT minC stale sz).1 ≤ kv.2.useTime) ∧
      ((timePruneScan before m minT minC stale sz).1 = minT ∨
        ∃ kv ∈ m, before < kv.2.useTime ∧
          (timePruneScan before m minT minC stale sz).1 = kv.2.useTime) := by
  intro m
  induction m with
  | nil =>
    intro minT minC stale sz
    refine ⟨fun h => ⟨h, le_refl _⟩, ?_, Or.inl rfl⟩
    intro kv hkv
    simp at hkv
  | cons kv rest ih =>
    intro minT minC stale sz
    obtain ⟨k, e⟩ := kv
    by_cases hb : e.useTime ≤ before
    · rw [timePruneScan, if_pos hb]
      rcases ih minT minC (stale ++ [k]) (sz + e.size) with ⟨ha, hbb, hcc⟩
      refine ⟨ha, ?_, ?_⟩
      · intro kv2 hkv2 hgt
        rcases List.mem_cons.mp hkv2 with hk | hk
        · rw [hk] at hgt
          dsimp only at hgt
          omega
        · exact hbb kv2 hk hgt
      · rcases hcc with h | ⟨kv2, hkv2, hgt, heq⟩
        · exact Or.inl h
        · exact Or.inr ⟨kv2, List.mem_cons_of_mem _ hkv2, hgt, heq⟩
    · have hgt0 : before < e.useTime := by omega
      have hne0 : e.useTime ≠ 0 := by omega
      rw [timePruneScan, if_neg hb]
      split_ifs with h1 h2
      · rcases ih e.useTime 1 stale sz with ⟨ha, hbb, hcc⟩
        have ha2 := ha hne0
        refine ⟨?_, ?_, ?_⟩
        · intro hm
          refine ⟨ha2.1, ?_⟩
          rcases h1 with h1 | h1
          · exact absurd h1 hm
          · omega
        · intro kv2 hkv2 hgt
          rcases List.mem_cons.mp hkv2 with hk | hk
          · rw [hk]
            exact ⟨ha2.1, ha2.2⟩
          · exact hbb kv2 hk hgt
        · rcases hcc with h | ⟨kv2, hkv2, hgt, heq⟩
          · exact Or.inr ⟨(k, e), List.mem_cons_self _ _, hgt0, h⟩
          · exact Or.inr ⟨kv2, List.mem_cons_of_mem _ hkv2, hgt, heq⟩
      · rcases ih minT (minC + 1) stale sz with ⟨ha, hbb, hcc⟩
        have hmne : minT ≠ 0 := by
          push_neg at h1
          exact h1.1
        have ha2 := ha hmne
        refine ⟨fun _ => ha2, ?_, ?_⟩
        · intro kv2 hkv2 hgt
          rcases List.mem_cons.mp hkv2 with hk | hk
          · rw [hk]
            refine ⟨ha2.1, ?_⟩
            dsimp only
            omega
          · exact hbb kv2 hk hgt
        · rcases hcc with h | ⟨kv2, hkv2, hgt, heq⟩
          · exact Or.inl h
          · exact Or.inr ⟨kv2, List.mem_cons_of_mem _ hkv2, hgt, heq⟩
      · rcases ih minT minC stale sz with ⟨ha, hbb, hcc⟩
        have hmne : minT ≠ 0 := by
          push_neg at h1
          exact h1.1
        have hmlt : minT ≤ e.useTime := by
          push_neg at h1
          omega
        have ha2 := ha hmne
        refine ⟨fun _ => ha2, ?_, ?_⟩
        · intro kv2 hkv2 hgt
          rcases List.mem_cons.mp hkv2 with hk | hk
          · rw [hk]
            exact ⟨ha2.1, le_trans ha2.2 hmlt⟩
          · exact hbb kv2 hk hgt
        · rcases hcc with h | ⟨kv2, hkv2, hgt, heq⟩
          · exact Or.inl h
          · exact Or.inr ⟨kv2, List.mem_cons_of_mem _ hkv2, hgt, heq⟩

theorem foldl_insertSet_mem_mono (l : List (Nat × Entry)) :
    ∀ (s : List Nat) (x : Nat), x ∈ s →
      x ∈ l.foldl (fun s kv => insertSet kv.1 s) s := by
  induction l with
  | nil => intro s x hx; exact hx
  | cons kv rest ih =>
    intro s x hx
    exact ih _ x (mem_insertSet.mpr (Or.inr hx))

theorem collectSizePrune_mono (settings : Settings) (st : DbState) (stale : List Nat)
    (sz : Int) (x : Nat) (hx : x ∈ stale) :
    x ∈ (collectSizePrune settings st stale sz).1 := by
  unfold collectSizePrune
  dsimp only
  split_ifs <;> first
    | exact hx
    | exact foldl_insertSet_mem_mono _ stale x hx

theorem timeInv_removeAll (settings : Settings) (ks : List Nat) (oks : List Bool)
    (st : DbState) (hs : SortedKeys st.map) (ht : TimeInv st) :
    TimeInv (removeAll settings st ks oks) := by
  obtain ⟨h1, h2, h3, h4⟩ := ht
  refine ⟨?_, ?_, ?_, ?_⟩
  · rw [removeAll_time]
    exact h1
  · rw [removeAll_min, removeAll_time]
    exact h2
  · intro kv hkv
    rcases removeAll_mem settings ks oks st hs kv hkv with ⟨hm, _⟩
    rcases h3 kv hm with ⟨g1, g2, g3⟩
    rw [removeAll_time, removeAll_min]
    exact ⟨g1, g2, g3⟩
  · intro hne
    rw [removeAll_min]
    rcases List.exists_mem_of_ne_nil _ hne with ⟨kv, hkv⟩
    rcases removeAll_mem settings ks oks st hs kv hkv with ⟨hm, _⟩
    exact h4 (List.ne_nil_of_mem hm)

theorem inv_prune (settings : Settings) (st : DbState) (now : Nat) (oks : List Bool)
    (hI : Inv settings st) : Inv settings (prune settings st now oks) := by
  have hs : SortedKeys st.map := hI.1.1
  refine ⟨?_, ?_⟩
  · unfold prune
    dsimp only
    exact baseInv_removeAll settings _ _ _
      (baseInv_transport (collectTimePrune_map settings st now)
        (collectTimePrune_totalSize settings st now) hI.1)
  · intro htr
    have ht := hI.2 htr
    unfold prune
    dsimp only
    by_cases hc0 : settings.totalTimeLimit = 0
    · have hct : collectTimePrune settings st now = (st, [], 0) := by
        unfold collectTimePrune
        rw [if_pos hc0]
      rw [hct]
      exact timeInv_removeAll settings _ _ st hs ht
    · by_cases hc1 : st.minimalEntryTime = 0 ∨
          st.minimalEntryTime > pruneBeforeTime settings st now
      · have hct : collectTimePrune settings st now = (st, [], 0) := by
          unfold collectTimePrune
          rw [if_neg hc0]
          dsimp only
          rw [if_pos hc1]
        rw [hct]
        exact timeInv_removeAll settings _ _ st hs ht
      · have hct : collectTimePrune settings st now =
            ({ st with
                minimalEntryTime :=
                  (timePruneScan (pruneBeforeTime settings st now) st.map 0 0 [] 0).1,
                entriesWithMinimalTimeCount :=
                  (timePruneScan (pruneBeforeTime settings st now) st.map 0 0 [] 0).2.1 },
              (timePruneScan (pruneBeforeTime settings st now) st.map 0 0 [] 0).2.2.1,
              (timePruneScan (pruneBeforeTime settings st now) st.map 0 0 [] 0).2.2.2) := by
          unfold collectTimePrune
          rw [if_neg hc0]
          dsimp only
          rw [if_neg hc1]
        rw [hct]
        dsimp only
        obtain ⟨h1, h2, h3, h4⟩ := ht
        have hsspec := timePruneScan_stale_spec (pruneBeforeTime settings st now)
          st.map 0 0 [] 0
        have hmspec := timePruneScan_min_spec (pruneBeforeTime settings st now)
          st.map 0 0 [] 0
        have hstale1 : (timePruneScan (pruneBeforeTime settings st now) st.map 0 0 [] 0).2.2.1 =
            (st.map.filter
              (fun kv => kv.2.useTime ≤ pruneBeforeTime settings st now)).map Prod.fst := by
          rw [hsspec.1]
          simp
        have hs1 : SortedKeys ({ st with
            minimalEntryTime :=
              (timePruneScan (pruneBeforeTime settings st now) st.map 0 0 [] 0).1,
            entriesWithMinimalTimeCount :=
              (timePruneScan (pruneBeforeTime settings st now) st.map 0 0 [] 0).2.1 } : DbState).map := hs
        have hmain : ∀ kv ∈ (removeAll settings
            { st with
              minimalEntryTime :=
                (timePruneScan (pruneBeforeTime settings st now) st.map 0 0 [] 0).1,
              entriesWithMinimalTimeCount :=
                (timePruneScan (pruneBeforeTime settings st now) st.map 0 0 [] 0).2.1 }
            (collectSizePrune settings
              { st with
                minimalEntryTime :=
                  (timePruneScan (pruneBeforeTime settings st now) st.map 0 0 [] 0).1,
                entriesWithMinimalTimeCount :=
                  (timePruneScan (pruneBeforeTime settings st now) st.map 0 0 [] 0).2.1 }
              (timePruneScan (pruneBeforeTime settings st now) st.map 0 0 [] 0).2.2.1
              (timePruneScan (pruneBeforeTime settings st now) st.map 0 0 [] 0).2.2.2).1
            oks).map,
            kv ∈ st.map ∧ pruneBeforeTime settings st now < kv.2.useTime := by
          intro kv hkv
          rcases removeAll_mem settings _ oks _ hs1 kv hkv with ⟨hm, hnotin⟩
          have hmm : kv ∈ st.map := hm
          refine ⟨hmm, ?_⟩
          by_contra hle
          push_neg at hle
          have hfil : kv ∈ st.map.filter
              (fun kv => kv.2.useTime ≤ pruneBeforeTime settings st now) :=
            List.mem_filter.mpr ⟨hmm, by simpa using hle⟩
          have hks : kv.1 ∈ (timePruneScan (pruneBeforeTime settings st now)
              st.map 0 0 [] 0).2.2.1 := by
            rw [hstale1]
            exact List.mem_map_of_mem Prod.fst hfil
          exact hnotin (collectSizePrune_mono settings _ _ _ kv.1 hks)
        refine ⟨?_, ?_, ?_, ?_⟩
        · rw [removeAll_time]
          exact h1
        · rw [removeAll_min, removeAll_time]
          show (timePruneScan (pruneBeforeTime settings st now) st.map 0 0 [] 0).1
            ≤ st.time.relative
          rcases hmspec.2.2 with hm | ⟨kv, hkv, _, heq⟩
          · omega
          · have := (h3 kv hkv).2.1
            omega
        · intro kv hkv
          rcases hmain kv hkv with ⟨hmm, hsurv⟩
          rcases h3 kv hmm with ⟨g1, g2, g3⟩
          have hb2 := hmspec.2.1 kv hmm hsurv
          rw [removeAll_time, removeAll_min]
          exact ⟨g1, g2, fun _ => hb2.2⟩
        · intro hne
          rw [removeAll_min]
          rcases List.exists_mem_of_ne_nil _ hne with ⟨kv, hkv⟩
          rcases hmain kv hkv with ⟨hmm, hsurv⟩
          exact (hmspec.2.1 kv hmm hsurv).1

theorem inv_applyOp (settings : Settings) (st : DbState) (op : DbOp)
    (hI : Inv settings st) : Inv settings (applyOp settings st op) := by
  cases op with
  | putOp key value now newPlace binlogOk openRes writeOk bundleOk =>
    unfold applyOp
    dsimp only
    cases h : put settings st key value now newPlace binlogOk openRes writeOk bundleOk with
    | none =>
      dsimp only
      exact hI
    | some pr =>
      dsimp only
      exact inv_put settings st key value now newPlace binlogOk openRes writeOk bundleOk
        pr h hI
  | getOp key now bundleOk => exact inv_get settings st key now bundleOk hI
  | removeOp key bundleOk => exact inv_remove settings st key bundleOk hI
  | flushOp now okRemove okAccess => exact inv_writeBundles settings st now okRemove okAccess hI
  | pruneOp now oks => exact inv_prune settings st now oks hI

theorem inv_runOps (settings : Settings) :
    ∀ (ops : List DbOp) (st : DbState), Inv settings st →
      Inv settings (runOps settings st ops) := by
  intro ops
  induction ops with
  | nil => intro st hI; exact hI
  | cons op ops ih =>
    intro st hI
    exact ih _ (inv_applyOp settings st op hI)

theorem inv_initialState (settings : Settings) (now : Nat) (h1 : 1 ≤ now) :
    Inv settings (initialState settings now) := by
  refine ⟨⟨?_, rfl, ?_⟩, ?_⟩
  · exact List.Pairwise.nil
  · intro kv hkv
    simp [initialState] at hkv
  · intro htr
    refine ⟨?_, ?_, ?_, ?_⟩
    · show 1 ≤ (if settings.trackEstimatedTime then now else 0)
      rw [if_pos htr]
      exact h1
    · show (0 : Nat) ≤ _
      omega
    · intro kv hkv
      simp [initialState] at hkv
    · intro hne
      exact absurd rfl hne

/-- Claim C5: after every sequence of public operations on a freshly opened
store, the aggregate totalSize equals the sum of entry.size over the index
(setMapEntry adds the size delta, eraseMapEntry subtracts the erased size,
and no other mutation changes sizes). -/
theorem totalSize_eq_sum_after_ops (settings : Settings) (now0 : Nat) (ops : List DbOp)
    (h1 : 1 ≤ now0) :
    (runOps settings (initialState settings now0) ops).totalSize =
      sumSizes (runOps settings (initialState settings now0) ops).map :=
  ((inv_runOps settings ops _ (inv_initialState settings now0 h1)).1).2.1

/-- Witness for claim C5 on the concrete three-operation scenario. -/
theorem totalSize_eq_sum_after_ops_witness :
    (runOps cSettingsMin (initialState cSettingsMin 5) cMinOps).totalSize =
      sumSizes (runOps cSettingsMin (initialState cSettingsMin 5) cMinOps).map :=
  totalSize_eq_sum_after_ops cSettingsMin 5 cMinOps (by decide)

/-- Claim C1, amended: with time tracking enabled, after every sequence of
public operations minimalEntryTime is a lower bound on useTime over the
index and is non-zero whenever the index is non-empty; it is not in
general the exact minimum, and it need not return to zero on an emptied
index, because eraseMapEntry and writeMultiAccessBlock never recompute it
upward (see the counterexample). -/
theorem minimalEntryTime_lower_bound (settings : Settings) (now0 : Nat)
    (ops : List DbOp) (h1 : 1 ≤ now0) (htr : settings.trackEstimatedTime = true) :
    (∀ kv ∈ (runOps settings (initialState settings now0) ops).map,
      (runOps settings (initialState settings now0) ops).minimalEntryTime
        ≤ kv.2.useTime) ∧
    ((runOps settings (initialState settings now0) ops).map ≠ [] →
      (runOps settings (initialState settings now0) ops).minimalEntryTime ≠ 0) := by
  have hT := (inv_runOps settings ops _ (inv_initialState settings now0 h1)).2 htr
  obtain ⟨_, _, h3, h4⟩ := hT
  refine ⟨?_, h4⟩
  intro kv hkv
  rcases h3 kv hkv with ⟨g1, _, g3⟩
  by_cases hz : 0 < (runOps settings (initialState settings now0) ops).minimalEntryTime
  · exact g3 hz
  · omega

/-- Witness for the amended claim C1 on the concrete scenario. -/
theorem minimalEntryTime_lower_bound_witness :
    (∀ kv ∈ cMinState.map, cMinState.minimalEntryTime ≤ kv.2.useTime) ∧
      (cMinState.map ≠ [] → cMinState.minimalEntryTime ≠ 0) :=
  minimalEntryTime_lower_bound cSettingsMin 5 cMinOps (by decide) rfl

/-- Counterexample to claim C1 as stated: put key 1 at relative time 5,
put key 2 at relative time 10, remove key 1.  The index then holds only
key 2 with useTime 10, so the minimum useTime is 10, but minimalEntryTime
still holds the stale value 5 (eraseMapEntry does not recompute it), so it
is not equal to the minimum useTime over the index. -/
theorem minimalEntryTime_not_exact_min :
    cSettingsMin.trackEstimatedTime = true ∧
    cMinState.map ≠ [] ∧
    specMinUseTime cMinState.map = 10 ∧
    cMinState.minimalEntryTime = 5 ∧
    cMinState.minimalEntryTime ≠ specMinUseTime cMinState.map := by
  decide

theorem popWhile_mem (rS : Int) (a : Entry) :
    ∀ (l : List (Nat × Entry)) (tot : Int) (x : Nat × Entry),
      x ∈ (popWhile rS a l tot).1 → x ∈ l := by
  intro l
  induction l with
  | nil => intro tot x hx; exact hx
  | cons f rest ih =>
    intro tot x hx
    rw [popWhile] at hx
    split_ifs at hx with h
    · exact List.mem_cons_of_mem _ (ih _ x hx)
    · exact hx

theorem popWhile_sum (rS : Int) (a : Entry) :
    ∀ (l : List (Nat × Entry)) (tot : Int), tot = sumSizes l →
      (popWhile rS a l tot).2 = sumSizes (popWhile rS a l tot).1 := by
  intro l
  induction l with
  | nil =>
    intro tot h
    exact h
  | cons f rest ih =>
    intro tot h
    rw [popWhile]
    split_ifs with hc
    · apply ih
      rw [h, sumSizes_cons]
      ring
    · exact h

theorem popWhile_cases (rS : Int) (a : Entry) :
    ∀ (l : List (Nat × Entry)) (tot : Int),
      ((popWhile rS a l tot).1 = l ∧ (popWhile rS a l tot).2 = tot) ∨
        rS ≤ (popWhile rS a l tot).2 + a.size := by
  intro l
  induction l with
  | nil => intro tot; exact Or.inl ⟨rfl, rfl⟩
  | cons f rest ih =>
    intro tot
    rw [popWhile]
    split_ifs with hc
    · rcases ih (tot - f.2.size) with ⟨h1, h2⟩ | h
      · refine Or.inr ?_
        rw [h2]
        omega
      · exact Or.inr h
    · exact Or.inl ⟨rfl, rfl⟩

theorem insertDesc_perm (x : Nat × Entry) :
    ∀ (l : List (Nat × Entry)), List.Perm (insertDesc x l) (x :: l) := by
  intro l
  induction l with
  | nil => exact List.Perm.refl _
  | cons y rest ih =>
    rw [insertDesc]
    split_ifs with h
    · exact List.Perm.trans (List.Perm.cons y ih) (List.Perm.swap x y rest)
    · exact List.Perm.refl _

theorem sumSizes_perm {l1 l2 : List (Nat × Entry)} (h : List.Perm l1 l2) :
    sumSizes l1 = sumSizes l2 := by
  unfold sumSizes
  exact List.Perm.sum_eq (List.Perm.map _ h)

theorem sumSizes_insertDesc (x : Nat × Entry) (l : List (Nat × Entry)) :
    sumSizes (insertDesc x l) = x.2.size + sumSizes l := by
  rw [sumSizes_perm (insertDesc_perm x l), sumSizes_cons]

theorem mem_insertDesc {y x : Nat × Entry} {l : List (Nat × Entry)}
    (h : y ∈ insertDesc x l) : y = x ∨ y ∈ l := by
  have := (insertDesc_perm x l).mem_iff.mp h
  simpa using this

theorem nodup_insertDesc_fst {x : Nat × Entry} {l : List (Nat × Entry)}
    (hx : x.1 ∉ l.map Prod.fst) (hl : (l.map Prod.fst).Nodup) :
    ((insertDesc x l).map Prod.fst).Nodup := by
  have hperm : List.Perm ((insertDesc x l).map Prod.fst) (x.1 :: l.map Prod.fst) :=
    List.Perm.map _ (insertDesc_perm x l)
  exact hperm.nodup_iff.mpr (List.nodup_cons.mpr ⟨hx, hl⟩)

theorem sumSizes_filter_compl (p : Nat × Entry → Bool) :
    ∀ (m : List (Nat × Entry)),
      sumSizes (m.filter p) + sumSizes (m.filter (fun x => !(p x))) = sumSizes m := by
  intro m
  induction m with
  | nil => rfl
  | cons kv rest ih =>
    by_cases h : p kv = true
    · rw [List.filter_cons_of_pos h, List.filter_cons_of_neg (by simp [h]),
        sumSizes_cons, sumSizes_cons]
      omega
    · rw [List.filter_cons_of_neg h, List.filter_cons_of_pos (by simp [h]),
        sumSizes_cons, sumSizes_cons]
      omega

theorem entry_unique {m : List (Nat × Entry)} {kv kv2 : Nat × Entry}
    (hs : SortedKeys m) (h1 : kv ∈ m) (h2 : kv2 ∈ m) (hk : kv.1 = kv2.1) :
    kv = kv2 := by
  have l1 : alookup kv.1 m = some kv.2 := mem_alookup hs h1
  have l2 : alookup kv2.1 m = some kv2.2 := mem_alookup hs h2
  rw [hk] at l1
  rw [l2] at l1
  injection l1 with h3
  exact Prod.ext hk h3.symm

theorem keysSizes_nil (m : List (Nat × Entry)) : keysSizes m [] = 0 := rfl

theorem keysSizes_cons (m : List (Nat × Entry)) (k : Nat) (ks : List Nat) :
    keysSizes m (k :: ks) =
      ((alookup k m).getD emptyEntry).size + keysSizes m ks := by
  unfold keysSizes
  simp

theorem keysSizes_congr {m1 m2 : List (Nat × Entry)} :
    ∀ (ks : List Nat), (∀ k ∈ ks, alookup k m1 = alookup k m2) →
      keysSizes m1 ks = keysSizes m2 ks := by
  intro ks
  induction ks with
  | nil => intro _; rfl
  | cons k rest ih =>
    intro h
    rw [keysSizes_cons, keysSizes_cons, h k (List.mem_cons_self _ _),
      ih (fun k2 hk2 => h k2 (List.mem_cons_of_mem _ hk2))]

theorem keysSizes_map_fst {m : List (Nat × Entry)} (hs : SortedKeys m) :
    ∀ (l : List (Nat × Entry)), (∀ kv ∈ l, kv ∈ m) →
      keysSizes m (l.map Prod.fst) = sumSizes l := by
  intro l
  induction l with
  | nil => intro _; rfl
  | cons kv rest ih =>
    intro h
    rw [List.map_cons, keysSizes_cons, sumSizes_cons,
      mem_alookup hs (h kv (List.mem_cons_self _ _)),
      ih (fun kv2 hkv2 => h kv2 (List.mem_cons_of_mem _ hkv2))]
    rfl

theorem keysSizes_insertSet_not_mem (m : List (Nat × Entry)) (k : Nat) :
    ∀ (s : List Nat), k ∉ s →
      keysSizes m (insertSet k s) =
        keysSizes m s + ((alookup k m).getD emptyEntry).size := by
  intro s
  induction s with
  | nil =>
    intro _
    rw [insertSet, keysSizes_cons]
    ring
  | cons x rest ih =>
    intro hk
    have hkx : k ≠ x := fun h => hk (h ▸ List.mem_cons_self _ _)
    have hkr : k ∉ rest := fun h => hk (List.mem_cons_of_mem _ h)
    by_cases h1 : k < x
    · rw [insertSet, if_pos h1, keysSizes_cons, keysSizes_cons]
      ring
    · rw [insertSet, if_neg h1, if_neg hkx, keysSizes_cons, keysSizes_cons, ih hkr]
      ring

theorem foldl_insertSet_mem_inv :
    ∀ (bag : List (Nat × Entry)) (s : List Nat) (x : Nat),
      x ∈ bag.foldl (fun s kv => insertSet kv.1 s) s →
        x ∈ s ∨ ∃ kv ∈ bag, x = kv.1 := by
  intro bag
  induction bag with
  | nil => intro s x hx; exact Or.inl hx
  | cons kv rest ih =>
    intro s x hx
    rw [List.foldl_cons] at hx
    rcases ih _ x hx with h | ⟨kv2, hkv2, hx2⟩
    · rcases mem_insertSet.mp h with h | h
      · exact Or.inr ⟨kv, List.mem_cons_self _ _, h⟩
      · exact Or.inl h
    · exact Or.inr ⟨kv2, List.mem_cons_of_mem _ hkv2, hx2⟩

theorem foldl_insertSet_sorted :
    ∀ (bag : List (Nat × Entry)) (s : List Nat), List.Pairwise (· < ·) s →
      List.Pairwise (· < ·) (bag.foldl (fun s kv => insertSet kv.1 s) s) := by
  intro bag
  induction bag with
  | nil => intro s hs; exact hs
  | cons kv rest ih =>
    intro s hs
    rw [List.foldl_cons]
    exact ih _ (sorted_insertSet hs)

theorem keysSizes_foldl_insertSet (m : List (Nat × Entry)) (hs : SortedKeys m) :
    ∀ (bag : List (Nat × Entry)) (s : List Nat),
      ((bag.map Prod.fst).Nodup) → (∀ x ∈ bag, x.1 ∉ s) → (∀ x ∈ bag, x ∈ m) →
      keysSizes m (bag.foldl (fun s kv => insertSet kv.1 s) s) =
        keysSizes m s + sumSizes bag := by
  intro bag
  induction bag with
  | nil =>
    intro s _ _ _
    rw [sumSizes_nil]
    ring_nf
    rfl
  | cons kv rest ih =>
    intro s hnd hns hmem
    rw [List.foldl_cons]
    have hnd2 : (rest.map Prod.fst).Nodup := (List.nodup_cons.mp (by simpa using hnd)).2
    have hkv1 : kv.1 ∉ rest.map Prod.fst := (List.nodup_cons.mp (by simpa using hnd)).1
    have hns2 : ∀ x ∈ rest, x.1 ∉ insertSet kv.1 s := by
      intro x hx hmemx
      rcases mem_insertSet.mp hmemx with h | h
      · exact hkv1 (h ▸ List.mem_map_of_mem Prod.fst hx)
      · exact hns x (List.mem_cons_of_mem _ hx) h
    rw [ih _ hnd2 hns2 (fun x hx => hmem x (List.mem_cons_of_mem _ hx)),
      keysSizes_insertSet_not_mem m kv.1 s (hns kv (List.mem_cons_self _ _)),
      mem_alookup hs (hmem kv (List.mem_cons_self _ _)), sumSizes_cons]
    dsimp only [Option.getD]
    ring

theorem popWhile_sublist (rS : Int) (a : Entry) :
    ∀ (l : List (Nat × Entry)) (tot : Int), ((popWhile rS a l tot).1).Sublist l := by
  intro l
  induction l with
  | nil => intro tot; exact List.Sublist.refl _
  | cons f rest ih =>
    intro tot
    rw [popWhile]
    split_ifs with h
    · exact List.Sublist.cons f (ih _)
    · exact List.Sublist.refl _

theorem sizePruneAdd_false {rS : Int} {oldest : List (Nat × Entry)} {tot : Int}
    {e : Entry} (h : ¬sizePruneAdd rS oldest tot e = true) : rS ≤ tot := by
  unfold sizePruneAdd at h
  split_ifs at h with h1
  · exact absurd rfl h
  · omega

theorem sizePruneScan_ge (rS : Int) (stale : List Nat) :
    ∀ (m oldest : List (Nat × Entry)) (tot : Int),
      (∀ kv ∈ m, 0 ≤ kv.2.size) → rS ≤ tot →
      rS ≤ (sizePruneScan rS stale m oldest tot).2 := by
  intro m
  induction m with
  | nil => intro oldest tot _ h; exact h
  | cons kv rest ih =>
    intro oldest tot hsz h
    obtain ⟨k, e⟩ := kv
    have hsz2 : ∀ kv ∈ rest, 0 ≤ kv.2.size :=
      fun kv hkv => hsz kv (List.mem_cons_of_mem _ hkv)
    have hsze : (0 : Int) ≤ e.size := hsz (k, e) (List.mem_cons_self _ _)
    rw [sizePruneScan]
    by_cases hst : k ∈ stale
    · rw [if_pos hst]
      exact ih oldest tot hsz2 h
    · rw [if_neg hst]
      by_cases hadd : sizePruneAdd rS oldest tot e = true
      · rw [if_pos hadd]
        apply ih _ _ hsz2
        rcases popWhile_cases rS e oldest tot with ⟨_, h2⟩ | h2
        · rw [h2]
          omega
        · omega
      · rw [if_neg hadd]
        exact ih oldest tot hsz2 h

theorem sizePruneScan_greedy (rS : Int) (stale : List Nat) :
    ∀ (m oldest : List (Nat × Entry)) (tot C : Int),
      (∀ kv ∈ m, 0 ≤ kv.2.size) → (rS ≤ tot ∨ tot = C) →
      (rS ≤ (sizePruneScan rS stale m oldest tot).2 ∨
        (sizePruneScan rS stale m oldest tot).2 =
          C + sumSizes (m.filter (fun kv => kv.1 ∉ stale))) := by
  intro m
  induction m with
  | nil =>
    intro oldest tot C _ h
    rcases h with h | h
    · exact Or.inl h
    · refine Or.inr ?_
      rw [h, sizePruneScan]
      simp [sumSizes]
  | cons kv rest ih =>
    intro oldest tot C hsz h
    obtain ⟨k, e⟩ := kv
    have hsz2 : ∀ kv ∈ rest, 0 ≤ kv.2.size :=
      fun kv hkv => hsz kv (List.mem_cons_of_mem _ hkv)
    have hsze : (0 : Int) ≤ e.size := hsz (k, e) (List.mem_cons_self _ _)
    rw [sizePruneScan]
    by_cases hst : k ∈ stale
    · rw [if_pos hst]
      have hfil : ((k, e) :: rest).filter (fun kv => kv.1 ∉ stale) =
          rest.filter (fun kv => kv.1 ∉ stale) := by
        simp [List.filter_cons, hst]
      rw [hfil]
      exact ih oldest tot C hsz2 h
    · rw [if_neg hst]
      have hfil : ((k, e) :: rest).filter (fun kv => kv.1 ∉ stale) =
          (k, e) :: rest.filter (fun kv => kv.1 ∉ stale) := by
        simp [List.filter_cons, hst]
      rw [hfil, sumSizes_cons]
      by_cases hadd : sizePruneAdd rS oldest tot e = true
      · rw [if_pos hadd]
        have hrec := ih (insertDesc (k, e) (popWhile rS e oldest tot).1)
          ((popWhile rS e oldest tot).2 + e.size) (C + e.size) hsz2 ?_
        · rcases hrec with hr | hr
          · exact Or.inl hr
          · refine Or.inr ?_
            rw [hr]
            dsimp only
            ring
        · rcases popWhile_cases rS e oldest tot with ⟨_, h2⟩ | h2
          · rw [h2]
            rcases h with h | h
            · exact Or.inl (by omega)
            · exact Or.inr (by omega)
          · exact Or.inl (by omega)
      · rw [if_neg hadd]
        have hge := sizePruneAdd_false hadd
        refine Or.inl ?_
        exact sizePruneScan_ge rS stale rest oldest tot hsz2 hge

theorem sizePruneScan_sum (rS : Int) (stale : List Nat) :
    ∀ (m oldest : List (Nat × Entry)) (tot : Int), tot = sumSizes oldest →
      (sizePruneScan rS stale m oldest tot).2 =
        sumSizes (sizePruneScan rS stale m oldest tot).1 := by
  intro m
  induction m with
  | nil => intro oldest tot h; exact h
  | cons kv rest ih =>
    intro oldest tot h
    obtain ⟨k, e⟩ := kv
    rw [sizePruneScan]
    by_cases hst : k ∈ stale
    · rw [if_pos hst]
      exact ih oldest tot h
    · rw [if_neg hst]
      by_cases hadd : sizePruneAdd rS oldest tot e = true
      · rw [if_pos hadd]
        apply ih
        rw [sumSizes_insertDesc]
        have := popWhile_sum rS e oldest tot h
        dsimp only
        omega
      · rw [if_neg hadd]
        exact ih oldest tot h

theorem sizePruneScan_mem (rS : Int) (stale : List Nat) :
    ∀ (m oldest : List (Nat × Entry)) (tot : Int) (x : Nat × Entry),
      x ∈ (sizePruneScan rS stale m oldest tot).1 →
      x ∈ oldest ∨ (x ∈ m ∧ x.1 ∉ stale) := by
  intro m
  induction m with
  | nil => intro oldest tot x hx; exact Or.inl hx
  | cons kv rest ih =>
    intro oldest tot x hx
    obtain ⟨k, e⟩ := kv
    rw [sizePruneScan] at hx
    by_cases hst : k ∈ stale
    · rw [if_pos hst] at hx
      rcases ih oldest tot x hx with h | ⟨h1, h2⟩
      · exact Or.inl h
      · exact Or.inr ⟨List.mem_cons_of_mem _ h1, h2⟩
    · rw [if_neg hst] at hx
      by_cases hadd : sizePruneAdd rS oldest tot e = true
      · rw [if_pos hadd] at hx
        rcases ih _ _ x hx with h | ⟨h1, h2⟩
        · rcases mem_insertDesc h with h | h
          · refine Or.inr ⟨by rw [h]; exact List.mem_cons_self _ _, ?_⟩
            rw [h]
            exact hst
          · exact Or.inl (popWhile_mem rS e oldest tot x h)
        · exact Or.inr ⟨List.mem_cons_of_mem _ h1, h2⟩
      · rw [if_neg hadd] at hx
        rcases ih oldest tot x hx with h | ⟨h1, h2⟩
        · exact Or.inl h
        · exact Or.inr ⟨List.mem_cons_of_mem _ h1, h2⟩

theorem sizePruneScan_nodup (rS : Int) (stale : List Nat) :
    ∀ (m oldest : List (Nat × Entry)) (tot : Int), SortedKeys m →
      (∀ x ∈ oldest, ∀ y ∈ m, x.1 < y.1) → ((oldest.map Prod.fst).Nodup) →
      (((sizePruneScan rS stale m oldest tot).1.map Prod.fst).Nodup) := by
  intro m
  induction m with
  | nil => intro oldest tot _ _ hnd; exact hnd
  | cons kv rest ih =>
    intro oldest tot hs hlt hnd
    obtain ⟨k, e⟩ := kv
    have hrest := (List.pairwise_cons.mp hs).2
    have hhead := (List.pairwise_cons.mp hs).1
    rw [sizePruneScan]
    by_cases hst : k ∈ stale
    · rw [if_pos hst]
      exact ih oldest tot hrest
        (fun x hx y hy => hlt x hx y (List.mem_cons_of_mem _ hy)) hnd
    · rw [if_neg hst]
      by_cases hadd : sizePruneAdd rS oldest tot e = true
      · rw [if_pos hadd]
        apply ih _ _ hrest
        · intro x hx y hy
          rcases mem_insertDesc hx with h | h
          · rw [h]
            exact hhead y hy
          · exact hlt x (popWhile_mem rS e oldest tot x h) y (List.mem_cons_of_mem _ hy)
        · apply nodup_insertDesc_fst
          · intro hc
            rcases List.mem_map.mp hc with ⟨y, hy, hy2⟩
            have := hlt y (popWhile_mem rS e oldest tot y hy) (k, e)
              (List.mem_cons_self _ _)
            dsimp only at this
            omega
          · exact ((popWhile_sublist rS e oldest tot).map Prod.fst).nodup hnd
      · rw [if_neg hadd]
        exact ih oldest tot hrest
          (fun x hx y hy => hlt x hx y (List.mem_cons_of_mem _ hy)) hnd

theorem removeAll_totalSize (settings : Settings) :
    ∀ (ks : List Nat) (oks : List Bool) (st : DbState), SortedKeys st.map →
      ks.Nodup → (∀ k ∈ ks, ∃ e, alookup k st.map = some e) →
      (removeAll settings st ks oks).totalSize = st.totalSize - keysSizes st.map ks := by
  intro ks
  induction ks with
  | nil =>
    intro oks st _ _ _
    rw [keysSizes_nil]
    show st.totalSize = st.totalSize - 0
    omega
  | cons k rest ih =>
    intro oks st hs hnd hpres
    rcases hpres k (List.mem_cons_self _ _) with ⟨e, he⟩
    rw [removeAll]
    have hmap := remove_map_some settings st k (oks.headD true) e he
    have htot := remove_totalSize_some settings st k (oks.headD true) e he
    have hs2 : SortedKeys (remove settings st k (oks.headD true)).map := by
      rw [hmap]
      exact sorted_aerase k hs
    have hnd2 : rest.Nodup := (List.nodup_cons.mp hnd).2
    have hknr : k ∉ rest := (List.nodup_cons.mp hnd).1
    have hpres2 : ∀ k2 ∈ rest, ∃ e2,
        alookup k2 (remove settings st k (oks.headD true)).map = some e2 := by
      intro k2 hk2
      rcases hpres k2 (List.mem_cons_of_mem _ hk2) with ⟨e2, he2⟩
      refine ⟨e2, ?_⟩
      have hne : k2 ≠ k := by
        intro hc
        rw [hc] at hk2
        exact hknr hk2
      rw [hmap, alookup_aerase_ne _ hne]
      exact he2
    rw [ih oks.tail _ hs2 hnd2 hpres2, htot]
    have hkc : keysSizes st.map (k :: rest) = e.size + keysSizes st.map rest := by
      rw [keysSizes_cons, he]
      rfl
    have hkr : keysSizes (remove settings st k (oks.headD true)).map rest =
        keysSizes st.map rest := by
      rw [hmap]
      apply keysSizes_congr
      intro k2 hk2
      have hne : k2 ≠ k := by
        intro hc
        rw [hc] at hk2
        exact hknr hk2
      exact alookup_aerase_ne _ hne
    rw [hkr, hkc]
    ring

theorem filter_mem_keys_of_sublist :
    ∀ (m l : List (Nat × Entry)), SortedKeys m → l.Sublist m →
      m.filter (fun kv => kv.1 ∈ l.map Prod.fst) = l := by
  intro m
  induction m with
  | nil =>
    intro l _ hl
    rw [List.sublist_nil.mp hl]
    rfl
  | cons kv rest ih =>
    intro l hs hl
    have hrest := (List.pairwise_cons.mp hs).2
    have hhead := (List.pairwise_cons.mp hs).1
    cases hl with
    | cons a hl2 =>
      have hnot : kv.1 ∉ l.map Prod.fst := by
        intro hc
        rcases List.mem_map.mp hc with ⟨y, hy, hy2⟩
        have hym : y ∈ rest := hl2.subset hy
        have := hhead y hym
        omega
      rw [List.filter_cons_of_neg (by simpa using hnot)]
      exact ih l hrest hl2
    | cons₂ a hl2 =>
      rename_i l2
      rw [List.filter_cons_of_pos (by simp)]
      have hcongr : rest.filter (fun x => x.1 ∈ (kv :: l2).map Prod.fst) =
          rest.filter (fun x => x.1 ∈ l2.map Prod.fst) := by
        apply List.filter_congr
        intro x hx
        have hne : x.1 ≠ kv.1 := by
          have := hhead x hx
          omega
        simp only [List.map_cons, List.mem_cons]
        simp [hne]
      rw [hcongr, ih l2 hrest hl2]

theorem prune_assemble (settings : Settings) (st1 : DbState) (oks : List Bool)
    (stale1 : List Nat) (sz1 : Int)
    (hs : SortedKeys st1.map) (hpos : ∀ kv ∈ st1.map, 0 < kv.2.size)
    (htot : st1.totalSize = sumSizes st1.map)
    (hsorted1 : List.Pairwise (· < ·) stale1)
    (hpres1 : ∀ k ∈ stale1, ∃ e, alookup k st1.map = some e)
    (hks1 : keysSizes st1.map stale1 = sz1)
    (hfil1 : sumSizes (st1.map.filter (fun kv => kv.1 ∈ stale1)) = sz1)
    (hlim : 0 < settings.totalSizeLimit) :
    (removeAll settings st1 (collectSizePrune settings st1 stale1 sz1).1 oks).totalSize
      ≤ settings.totalSizeLimit := by
  have hnd1 : stale1.Nodup := hsorted1.imp (fun h => Nat.ne_of_lt h)
  unfold collectSizePrune
  dsimp only
  rw [if_pos hlim]
  by_cases hrs : st1.totalSize - sz1 - settings.totalSizeLimit ≤ 0
  · rw [if_pos hrs]
    rw [removeAll_totalSize settings stale1 oks st1 hs hnd1 hpres1, hks1]
    omega
  · rw [if_neg hrs]
    dsimp only
    have hsum := sizePruneScan_sum (st1.totalSize - sz1 - settings.totalSizeLimit)
      stale1 st1.map [] 0 rfl
    have hmem : ∀ x ∈ (sizePruneScan (st1.totalSize - sz1 - settings.totalSizeLimit)
        stale1 st1.map [] 0).1, x ∈ st1.map ∧ x.1 ∉ stale1 := by
      intro x hx
      rcases sizePruneScan_mem (st1.totalSize - sz1 - settings.totalSizeLimit)
        stale1 st1.map [] 0 x hx with h | h
      · simp at h
      · exact h
    have hnodup : (((sizePruneScan (st1.totalSize - sz1 - settings.totalSizeLimit)
        stale1 st1.map [] 0).1).map Prod.fst).Nodup := by
      apply sizePruneScan_nodup _ stale1 st1.map [] 0 hs
      · intro x hx
        simp at hx
      · simp
    have hposz : ∀ kv ∈ st1.map, (0 : Int) ≤ kv.2.size :=
      fun kv h => le_of_lt (hpos kv h)
    have hfilcompl : sumSizes (st1.map.filter (fun kv => kv.1 ∉ stale1)) =
        st1.totalSize - sz1 := by
      have hcompl := sumSizes_filter_compl (fun kv => decide (kv.1 ∈ stale1)) st1.map
      have hcongr : st1.map.filter (fun x => !(decide (x.1 ∈ stale1))) =
          st1.map.filter (fun kv => kv.1 ∉ stale1) := by
        apply List.filter_congr
        intro x _
        simp
      rw [hcongr] at hcompl
      rw [hfil1] at hcompl
      omega
    have hge : st1.totalSize - sz1 - settings.totalSizeLimit ≤
        (sizePruneScan (st1.totalSize - sz1 - settings.totalSizeLimit)
          stale1 st1.map [] 0).2 := by
      rcases sizePruneScan_greedy (st1.totalSize - sz1 - settings.totalSizeLimit)
        stale1 st1.map [] 0 0 hposz (Or.inr rfl) with h | h
      · exact h
      · rw [hfilcompl] at h
        omega
    have hsorted2 : List.Pairwise (· < ·)
        (((sizePruneScan (st1.totalSize - sz1 - settings.totalSizeLimit)
          stale1 st1.map [] 0).1).foldl (fun s kv => insertSet kv.1 s) stale1) :=
      foldl_insertSet_sorted _ stale1 hsorted1
    have hnd2 := hsorted2.imp (fun h => Nat.ne_of_lt h)
    have hpres2 : ∀ k ∈ (((sizePruneScan (st1.totalSize - sz1 - settings.totalSizeLimit)
        stale1 st1.map [] 0).1).foldl (fun s kv => insertSet kv.1 s) stale1),
        ∃ e, alookup k st1.map = some e := by
      intro k hk
      rcases foldl_insertSet_mem_inv _ stale1 k hk with h | ⟨kv, hkv, h2⟩
      · exact hpres1 k h
      · refine ⟨kv.2, ?_⟩
        rw [h2]
        exact mem_alookup hs (hmem kv hkv).1
    have hks2 : keysSizes st1.map
        (((sizePruneScan (st1.totalSize - sz1 - settings.totalSizeLimit)
          stale1 st1.map [] 0).1).foldl (fun s kv => insertSet kv.1 s) stale1) =
        sz1 + (sizePruneScan (st1.totalSize - sz1 - settings.totalSizeLimit)
          stale1 st1.map [] 0).2 := by
      rw [keysSizes_foldl_insertSet st1.map hs _ stale1 hnodup
        (fun x hx => (hmem x hx).2) (fun x hx => (hmem x hx).1), hks1, ← hsum]
    rw [removeAll_totalSize settings _ oks st1 hs hnd2 hpres2, hks2]
    omega

/-- Claim C2: for an index with positive entry sizes and a consistent
totalSize, a completed run of prune (collectTimePrune, then
collectSizePrune, then removal of every staged stale key) leaves totalSize
at most totalSizeLimit whenever totalSizeLimit is positive; the greedy
oldest-first bag of collectSizePrune always stages entries covering the
residual totalSize minus staleTotalSize minus totalSizeLimit. -/
theorem prune_totalSize_le_limit (settings : Settings) (st : DbState) (now : Nat)
    (oks : List Bool) (hs : SortedKeys st.map)
    (hpos : ∀ kv ∈ st.map, 0 < kv.2.size)
    (htot : st.totalSize = sumSizes st.map) (hlim : 0 < settings.totalSizeLimit) :
    (prune settings st now oks).totalSize ≤ settings.totalSizeLimit := by
  unfold prune
  dsimp only
  have hfilnil : sumSizes (st.map.filter (fun kv => kv.1 ∈ ([] : List Nat))) = 0 := by
    simp [sumSizes]
  by_cases hc0 : settings.totalTimeLimit = 0
  · have hct : collectTimePrune settings st now = (st, [], 0) := by
      unfold collectTimePrune
      rw [if_pos hc0]
    rw [hct]
    exact prune_assemble settings st oks [] 0 hs hpos htot List.Pairwise.nil
      (by simp) rfl hfilnil hlim
  · by_cases hc1 : st.minimalEntryTime = 0 ∨
        st.minimalEntryTime > pruneBeforeTime settings st now
    · have hct : collectTimePrune settings st now = (st, [], 0) := by
        unfold collectTimePrune
        rw [if_neg hc0]
        dsimp only
        rw [if_pos hc1]
      rw [hct]
      exact prune_assemble settings st oks [] 0 hs hpos htot List.Pairwise.nil
        (by simp) rfl hfilnil hlim
    · have hct : collectTimePrune settings st now =
          ({ st with
              minimalEntryTime :=
                (timePruneScan (pruneBeforeTime settings st now) st.map 0 0 [] 0).1,
              entriesWithMinimalTimeCount :=
                (timePruneScan (pruneBeforeTime settings st now) st.map 0 0 [] 0).2.1 },
            (timePruneScan (pruneBeforeTime settings st now) st.map 0 0 [] 0).2.2.1,
            (timePruneScan (pruneBeforeTime settings st now) st.map 0 0 [] 0).2.2.2) := by
        unfold collectTimePrune
        rw [if_neg hc0]
        dsimp only
        rw [if_neg hc1]
      rw [hct]
      dsimp only
      have hsspec := timePruneScan_stale_spec (pruneBeforeTime settings st now)
        st.map 0 0 [] 0
      have hstale1 : (timePruneScan (pruneBeforeTime settings st now) st.map 0 0 [] 0).2.2.1 =
          (st.map.filter
            (fun kv => kv.2.useTime ≤ pruneBeforeTime settings st now)).map Prod.fst := by
        rw [hsspec.1]
        simp
      have hsz1 : (timePruneScan (pruneBeforeTime settings st now) st.map 0 0 [] 0).2.2.2 =
          sumSizes (st.map.filter
            (fun kv => kv.2.useTime ≤ pruneBeforeTime settings st now)) := by
        rw [hsspec.2]
        simp
      have hsubf : (st.map.filter
          (fun kv => kv.2.useTime ≤ pruneBeforeTime settings st now)).Sublist st.map :=
        List.filter_sublist _
      have hsf : SortedKeys (st.map.filter
          (fun kv => kv.2.useTime ≤ pruneBeforeTime settings st now)) :=
        List.Pairwise.sublist hsubf hs
      refine prune_assemble settings _ oks _ _ ?_ ?_ ?_ ?_ ?_ ?_ ?_ ?_
      · exact hs
      · exact hpos
      · exact htot
      · rw [hstale1]
        exact (sortedKeys_iff_map_fst _).mp hsf
      · intro k hk
        rw [hstale1] at hk
        rcases List.mem_map.mp hk with ⟨kv, hkv, hkeq⟩
        refine ⟨kv.2, ?_⟩
        rw [← hkeq]
        exact mem_alookup hs (List.mem_of_mem_filter hkv)
      · rw [hstale1, hsz1]
        exact keysSizes_map_fst hs _ (fun kv hkv => List.mem_of_mem_filter hkv)
      · rw [hstale1, hsz1, filter_mem_keys_of_sublist st.map _ hs hsubf]
      · exact hlim

/-- Witness for claim C2: pruning the concrete over-limit three-entry
state (sizes 5, 5, 5, limit 10) brings totalSize within the limit. -/
theorem prune_totalSize_le_limit_witness :
    (prune wSettingsPrune wStatePrune 0 []).totalSize ≤ wSettingsPrune.totalSizeLimit :=
  prune_totalSize_le_limit wSettingsPrune wStatePrune 0 []
    (by unfold SortedKeys; decide) (by decide) (by decide) (by decide)

theorem recordEntryAccess_files (settings : Settings) (st : DbState) (key now : Nat)
    (ok : Bool) : (recordEntryAccess settings st key now ok).files = st.files := by
  unfold recordEntryAccess writeMultiAccessLazy writeMultiAccessBlock
  split_ifs <;> rfl

theorem recordEntryAccess_binlog (settings : Settings) (st : DbState) (key now : Nat)
    (ok : Bool) : (recordEntryAccess settings st key now ok).binlog = st.binlog ∨
      ∃ tp ks, (recordEntryAccess settings st key now ok).binlog =
        st.binlog ++ [BinRecord.multiAccess tp ks] := by
  unfold recordEntryAccess writeMultiAccessLazy writeMultiAccessBlock
  split_ifs <;> first
    | (left; rfl)
    | (right; exact ⟨_, _, rfl⟩)

theorem recordEntryAccess_entry (settings : Settings) (st : DbState) (key now : Nat)
    (ok : Bool) (k2 : Nat) (e : Entry) (h : alookup k2 st.map = some e) :
    ∃ e2, alookup k2 (recordEntryAccess settings st key now ok).map = some e2 ∧
      e2.place = e.place ∧ e2.tag = e.tag ∧ e2.size = e.size ∧ e2.checksum = e.checksum := by
  unfold recordEntryAccess writeMultiAccessLazy
  by_cases htr : settings.trackEstimatedTime = true
  · rw [if_pos htr]
    dsimp only
    by_cases hfl : (insertSet key st.accessed).length = settings.maxBundledRecords
    · rw [if_pos hfl]
      rw [writeMultiAccessBlock_map]
      dsimp only
      rw [alookup_bumpUseTimes, h]
      dsimp only [Option.map]
      refine ⟨_, rfl, ?_, ?_, ?_, ?_⟩ <;> (split_ifs <;> rfl)
    · rw [if_neg hfl]
      exact ⟨e, h, rfl, rfl, rfl, rfl⟩
  · rw [if_neg htr]
    exact ⟨e, h, rfl, rfl, rfl, rfl⟩

theorem writeKeyPlace_eq_generic (settings : Settings) (st : DbState) (key : Nat)
    (v : List Nat) (checksum np : Nat) (blOk : Bool) (now : Nat) :
    ∃ tf, writeKeyPlace settings st key v checksum np blOk now =
      writeKeyPlaceGeneric settings st tf key v checksum np blOk := by
  unfold writeKeyPlace
  by_cases htr : ¬settings.trackEstimatedTime = true
  · rw [if_pos htr]
    exact ⟨none, rfl⟩
  · rw [if_neg htr]
    exact ⟨_, rfl⟩

theorem writeKeyPlaceCommit_some_entry (settings : Settings) (st : DbState)
    (tf : Option EstimatedTimePoint) (key : Nat) (v : List Nat)
    (checksum place : Nat) (blOk : Bool) (hv : v ≠ [])
    (hsize : (v.length : Int) ≤ settings.maxDataSize) (hb : blOk = true) :
    ∃ e, alookup key (writeKeyPlaceCommit settings st tf key v checksum place blOk).2.map
      = some e ∧ e.tag = 0 ∧ e.size = (v.length : Int) ∧ e.checksum = checksum := by
  unfold writeKeyPlaceCommit
  dsimp only
  rw [if_pos hb]
  have h0 : 0 < v.length := List.length_pos.mpr hv
  have hguard : ¬((v.length : Int) ≤ 0 ∨ (v.length : Int) > settings.maxDataSize) := by
    push_neg
    constructor <;> omega
  unfold processRecordStore
  rw [if_neg hguard]
  cases tf with
  | none =>
    dsimp only
    rw [setMapEntry_map, alookup_ainsert_self]
    exact ⟨_, rfl, rfl, rfl, rfl⟩
  | some tp =>
    dsimp only
    rw [setMapEntry_map, alookup_ainsert_self]
    exact ⟨_, rfl, rfl, rfl, rfl⟩

theorem writeKeyPlaceGeneric_some_entry (settings : Settings) (st : DbState)
    (tf : Option EstimatedTimePoint) (key : Nat) (v : List Nat) (np : Nat)
    (blOk : Bool) (hv : v ≠ [])
    (hsize : (v.length : Int) ≤ settings.maxDataSize) (hb : blOk = true) :
    ∃ e, alookup key
        (writeKeyPlaceGeneric settings st tf key v (CountChecksum v) np blOk).2.map
      = some e ∧ e.tag = 0 ∧ e.size = (v.length : Int)
      ∧ e.checksum = CountChecksum v := by
  unfold writeKeyPlaceGeneric
  dsimp only
  cases hm : alookup key st.map with
  | none =>
    dsimp only
    exact writeKeyPlaceCommit_some_entry settings st tf key v (CountChecksum v) np
      blOk hv hsize hb
  | some already =>
    dsimp only
    by_cases hfast : already.tag = 0 ∧ already.size = (v.length : Int)
        ∧ already.checksum = CountChecksum v
        ∧ readValueData st already.place (v.length : Int) = v
    · rw [if_pos hfast]
      exact ⟨already, hm, hfast.1, hfast.2.1, hfast.2.2.1⟩
    · rw [if_neg hfast]
      exact writeKeyPlaceCommit_some_entry settings st tf key v (CountChecksum v)
        already.place blOk hv hsize hb

theorem put_success_entry (settings : Settings) (st : DbState) (key : Nat)
    (v : List Nat) (now np : Nat) (blOk : Bool) (oR : OpenResult) (wOk buOk : Bool)
    (st1 : DbState) (hv : v ≠ []) (hb : blOk = true)
    (h1 : put settings st key v now np blOk oR wOk buOk = some (st1, ErrorType.noError)) :
    ∃ e, alookup key st1.map = some e ∧ e.tag = 0 ∧ e.size = (v.length : Int)
      ∧ e.checksum = CountChecksum v := by
  unfold put at h1
  rw [if_neg hv] at h1
  dsimp only at h1
  by_cases hbig : (v.length : Int) > settings.maxDataSize
  · rw [if_pos hbig] at h1
    exact absurd h1 (by simp)
  · rw [if_neg hbig] at h1
    obtain ⟨tf, hwkp⟩ := writeKeyPlace_eq_generic settings
      { st with removing := eraseSet key st.removing } key v (CountChecksum v) np blOk now
    rw [hwkp] at h1
    obtain ⟨e, hlk, ht, hs, hc⟩ := writeKeyPlaceGeneric_some_entry settings
      { st with removing := eraseSet key st.removing } tf key v np blOk hv
      (not_lt.mp hbig) hb
    · cases hpr1 : (writeKeyPlaceGeneric settings
          { st with removing := eraseSet key st.removing } tf key v (CountChecksum v)
          np blOk).1 with
      | none =>
        rw [hpr1] at h1
        dsimp only at h1
        simp at h1
      | some o =>
        cases o with
        | none =>
          rw [hpr1] at h1
          dsimp only at h1
          simp only [Option.some.injEq, Prod.mk.injEq, and_true] at h1
          rcases recordEntryAccess_entry settings _ key now buOk key e hlk
            with ⟨e2, hlk2, hp2, ht2, hs2, hc2⟩
          refine ⟨e2, ?_, ht2.trans ht, hs2.trans hs, hc2.trans hc⟩
          rw [← h1]
          exact hlk2
        | some place =>
          rw [hpr1] at h1
          dsimp only at h1
          cases oR with
          | failed => simp at h1
          | lockFailed => simp at h1
          | success =>
            dsimp only at h1
            by_cases hw : wOk = true
            · rw [if_pos hw] at h1
              simp only [Option.some.injEq, Prod.mk.injEq, and_true] at h1
              refine ⟨e, ?_, ht, hs, hc⟩
              rw [← h1]
              exact hlk
            · rw [if_neg hw] at h1
              simp at h1

/-- Claim C6 (amended): if a put(k, v) with non-empty v of admissible size
succeeded with its binlog append succeeding (a failed append also reports
NoError but creates no entry) and the data file at the stored entry's place
still reads back equal to v, an immediately repeated put(k, v) takes the
fast path: it returns NoError, its whole effect is dropping k from the
pending-removing set and recording an access, it performs no data-file
write (the files are unchanged), it appends no Store record (the binlog
grows by at most a flushed MultiAccess bundle), and every index entry keeps
its place, tag, size and checksum (only useTime may advance). -/
theorem put_repeated_fast_path (settings : Settings) (st st1 : DbState) (key : Nat)
    (v : List Nat) (now1 np1 : Nat) (b1 : Bool) (o1 : OpenResult) (w1 bu1 : Bool)
    (now2 np2 : Nat) (b2 : Bool) (o2 : OpenResult) (w2 bu2 : Bool)
    (hv : v ≠ []) (hsize : (v.length : Int) ≤ settings.maxDataSize) (hb1 : b1 = true)
    (h1 : put settings st key v now1 np1 b1 o1 w1 bu1 = some (st1, ErrorType.noError))
    (hread : ∀ kv ∈ st1.map, kv.1 = key →
      readValueData st1 kv.2.place (v.length : Int) = v) :
    ∃ st2, put settings st1 key v now2 np2 b2 o2 w2 bu2 = some (st2, ErrorType.noError)
      ∧ st2 = recordEntryAccess settings
          { st1 with removing := eraseSet key st1.removing } key now2 bu2
      ∧ st2.files = st1.files
      ∧ (st2.binlog = st1.binlog
          ∨ ∃ tp ks, st2.binlog = st1.binlog ++ [BinRecord.multiAccess tp ks])
      ∧ ∀ k2 e, alookup k2 st1.map = some e →
          ∃ e2, alookup k2 st2.map = some e2 ∧ e2.place = e.place ∧ e2.tag = e.tag
            ∧ e2.size = e.size ∧ e2.checksum = e.checksum := by
  obtain ⟨e, hlk, ht, hs, hc⟩ :=
    put_success_entry settings st key v now1 np1 b1 o1 w1 bu1 st1 hv hb1 h1
  have hrd : readValueData st1 e.place (v.length : Int) = v :=
    hread (key, e) (alookup_mem hlk) rfl
  refine ⟨recordEntryAccess settings
    { st1 with removing := eraseSet key st1.removing } key now2 bu2, ?_, rfl, ?_, ?_, ?_⟩
  · unfold put
    rw [if_neg hv]
    dsimp only
    rw [if_neg (not_lt.mpr hsize)]
    obtain ⟨tf, hwkp⟩ := writeKeyPlace_eq_generic settings
      { st1 with removing := eraseSet key st1.removing } key v (CountChecksum v) np2 b2 now2
    rw [hwkp]
    unfold writeKeyPlaceGeneric
    dsimp only
    rw [hlk]
    dsimp only
    have hcond : e.tag = 0 ∧ e.size = (v.length : Int) ∧ e.checksum = CountChecksum v
        ∧ readValueData { st1 with removing := eraseSet key st1.removing } e.place
            (v.length : Int) = v := ⟨ht, hs, hc, hrd⟩
    rw [if_pos hcond]
  · exact recordEntryAccess_files settings _ key now2 bu2
  · rcases recordEntryAccess_binlog settings
        { st1 with removing := eraseSet key st1.removing } key now2 bu2
      with h | ⟨tp, ks, h⟩
    · left
      exact h
    · right
      exact ⟨tp, ks, h⟩
  · intro k2 e2 h2
    exact recordEntryAccess_entry settings _ key now2 bu2 k2 e2 h2

/-- Witness for claim C6: the concrete fast-path scenario (store key 1
with value [7], then repeat it) takes the fast path of the amended
statement. -/
theorem put_repeated_fast_path_witness :
    ∃ st2, put cSettingsBundleOne cFastPathState 1 [7] 5 4 true OpenResult.success
        true true = some (st2, ErrorType.noError)
      ∧ st2 = recordEntryAccess cSettingsBundleOne
          { cFastPathState with removing := eraseSet 1 cFastPathState.removing } 1 5 true
      ∧ st2.files = cFastPathState.files
      ∧ (st2.binlog = cFastPathState.binlog
          ∨ ∃ tp ks, st2.binlog = cFastPathState.binlog ++ [BinRecord.multiAccess tp ks])
      ∧ ∀ k2 e, alookup k2 cFastPathState.map = some e →
          ∃ e2, alookup k2 st2.map = some e2 ∧ e2.place = e.place ∧ e2.tag = e.tag
            ∧ e2.size = e.size ∧ e2.checksum = e.checksum :=
  put_repeated_fast_path cSettingsBundleOne (initialState cSettingsBundleOne 5)
    cFastPathState 1 [7] 5 3 true OpenResult.success true true
    5 4 true OpenResult.success true true
    (by decide) (by decide) rfl (by decide) (by decide)

/-- The repeated put of the fast-path scenario returns NoError on both
calls, yet the binlog grows by one record on the second call: with
maxBundledRecords 1 the access recorded on the fast path immediately
flushes a MultiAccess bundle, so the second put is not free of binlog
appends. -/
theorem put_repeated_appends_record :
    cFastPathFirst.map (fun pr => pr.2) = some ErrorType.noError
    ∧ cFastPathSecond.map (fun pr => pr.2) = some ErrorType.noError
    ∧ cFastPathSecond.map (fun pr => pr.1.binlog.length)
      = cFastPathFirst.map (fun pr => pr.1.binlog.length + 1) := by
  decide

end CacheDb
